import Mathlib

/-!
Verification of the focus-mcp policy/enforcement engine.

Shallow embedding conventions:
* JavaScript strings are modelled as `List Char` (`Str`); `String.prototype`
  operations (`toLowerCase`, `endsWith`, `indexOf`, `slice`, `trimEnd`,
  concatenation) become the corresponding list operations defined below.
* JavaScript numbers (millisecond timestamps, minute counts) are modelled as
  `ℚ`, which captures the fractional and negative values representable by the
  source's floating-point arithmetic on the ranges that occur here.
* `Date.now()` is passed explicitly as a `now : ℚ` parameter; the
  `new Date().toISOString()` generation stamp is passed as a `ts : Str`
  parameter.
* File-system and process side effects are reified as an `Eff` trace so that
  the write discipline (direct write vs. temp-file-plus-rename) and the
  startup ordering are inspectable.
-/

/-- JavaScript strings as lists of characters. -/
abbrev Str := List Char

/-- `s.toLowerCase()` (ASCII case mapping, as used by the source's domains). -/
def lowerStr (s : Str) : Str := s.map Char.toLower

/-- `replace(/^www\./, '')`: strip one leading `www.` if present. -/
def stripW : Str → Str
  | 'w' :: 'w' :: 'w' :: '.' :: rest => rest
  | s => s

/-- `normalizeDomain` from `src/store.ts` / `src/main/store.ts`:
`domain.toLowerCase().replace(/^www\./, '')`. -/
def normalizeDomain (domain : Str) : Str := stripW (lowerStr domain)

/-- `matchesDomain` from the stores: `nq === np || nq.endsWith('.' + np)`
after normalizing both arguments. -/
def matchesDomain (query pattn : Str) : Bool :=
  let nq := normalizeDomain query
  let np := normalizeDomain pattn
  decide (nq = np) || decide (('.' :: np) <:+ nq)

/-- An allowance record of the control-side policy store
(`{ domain, expiresAt, reason, grantedMinutes }`). -/
structure Allowance where
  domain : Str
  expiresAt : ℚ
  reason : Str
  grantedMinutes : ℚ
deriving DecidableEq

/-- A hard lockout `{ domain, until }`; the `until` ISO date string is
modelled by the timestamp `new Date(until)` parses to, since the source only
ever compares it against `new Date()`. -/
structure HardLockout where
  domain : Str
  untilTime : ℚ
deriving DecidableEq

/-- The control-side policy store (`src/store.ts` `StoreSchema`), restricted
to the fields the claims concern. -/
structure PolicyStore where
  blockedDomains : List Str
  delayedDomains : List Str
  allowances : List Allowance
  hardLockouts : List HardLockout
deriving DecidableEq

/-- `getActiveAllowances` (store): the non-expired allowances
(`a.expiresAt > now`); the source also writes this pruned list back. -/
def getActiveAllowances (ps : PolicyStore) (now : ℚ) : List Allowance :=
  ps.allowances.filter (fun a => decide (a.expiresAt > now))

/-- `isDomainBlocked` from `src/main/store.ts` (lines 144-163) and
`src/store.ts`: the normalized query must match some blocklist entry
(subdomain-inclusive) and no active allowance may cover it. -/
def isDomainBlocked (ps : PolicyStore) (now : ℚ) (domain : Str) : Bool :=
  let normalized := normalizeDomain domain
  let isInBlocklist := ps.blockedDomains.any (fun b =>
    let nb := normalizeDomain b
    decide (normalized = nb) || decide (('.' :: nb) <:+ normalized))
  if !isInBlocklist then false
  else
    let hasAllowance := ps.allowances.any (fun a =>
      matchesDomain normalized a.domain && decide (a.expiresAt > now))
    !hasAllowance

/-- `grantAllowance` from the stores: drop entries whose stored domain is
(exactly) the normalized granted domain, then append the new record with
`expiresAt = Date.now() + minutes * 60 * 1000`. -/
def grantAllowance (ps : PolicyStore) (domain : Str) (minutes : ℚ)
    (reason : Str) (now : ℚ) : PolicyStore × Allowance :=
  let normalized := normalizeDomain domain
  let filtered := ps.allowances.filter (fun a => decide (a.domain ≠ normalized))
  let a : Allowance :=
    { domain := normalized
      expiresAt := now + minutes * 60 * 1000
      reason := reason
      grantedMinutes := minutes }
  ({ ps with allowances := filtered ++ [a] }, a)

/-- `revokeAllowance` from the stores. -/
def revokeAllowance (ps : PolicyStore) (domain : Str) : PolicyStore :=
  let normalized := normalizeDomain domain
  { ps with allowances := ps.allowances.filter (fun a => decide (a.domain ≠ normalized)) }

/-- `addBlockedDomain` from the stores. -/
def addBlockedDomain (ps : PolicyStore) (domain : Str) : PolicyStore :=
  let normalized := normalizeDomain domain
  if normalized ∈ ps.blockedDomains then ps
  else { ps with blockedDomains := ps.blockedDomains ++ [normalized] }

/-- `removeBlockedDomain` from the stores. -/
def removeBlockedDomain (ps : PolicyStore) (domain : Str) : PolicyStore :=
  let normalized := normalizeDomain domain
  { ps with blockedDomains := ps.blockedDomains.filter (fun d => decide (d ≠ normalized)) }

/-- `isHardLocked` from `src/store.ts`: some lockout whose normalized domain
matches the normalized query (subdomain-inclusive) with `now < new Date(l.until)`. -/
def isHardLocked (ps : PolicyStore) (now : ℚ) (domain : Str) : Bool :=
  let normalized := normalizeDomain domain
  ps.hardLockouts.any (fun l =>
    let lockDomain := normalizeDomain l.domain
    (decide (normalized = lockDomain) || decide (('.' :: lockDomain) <:+ normalized))
      && decide (now < l.untilTime))

/-! ### Control server REST handlers (`src/server.ts`) -/

/-- `POST /api/grant` from `src/server.ts` (lines 107-126): reject with 400
when `domain` or `minutes` is falsy, otherwise call `grantAllowance` and
respond 200 with `success: true`.  The handler performs no minutes-range
check and no hard-lockout check.  Returns (HTTP status, resulting store). -/
def serverGrant (ps : PolicyStore) (domain : Str) (minutes : ℚ)
    (reason : Option Str) (now : ℚ) : ℕ × PolicyStore :=
  if domain = [] ∨ minutes = 0 then (400, ps)
  else
    let r := grantAllowance ps domain minutes
      (reason.getD ("Granted via API".toList)) now
    (200, r.1)

/-- `DELETE /api/block/:domain` from `src/server.ts` (lines 87-96): always
removes the domain and responds 200; no hard-lockout check. -/
def serverDeleteBlock (ps : PolicyStore) (domain : Str) : ℕ × PolicyStore :=
  (200, removeBlockedDomain ps domain)

/-! ### Daemon state and policy functions (`daemon/daemon.cjs`) -/

/-- A daemon-side allowance `{ domain, expiresAt, reason }`. -/
structure DAllowance where
  domain : Str
  expiresAt : ℚ
  reason : Str
deriving DecidableEq

/-- The daemon's persisted mirror (`state` in `daemon.cjs`). -/
structure DaemonState where
  blockedDomains : List Str
  allowances : List DAllowance
  shieldActive : Bool
  lastUpdated : ℚ
deriving DecidableEq

/-- `getActiveAllowances` (daemon, lines 58-61): allowances with
`expiresAt > now`. -/
def daemonActiveAllowances (s : DaemonState) (now : ℚ) : List DAllowance :=
  s.allowances.filter (fun a => decide (a.expiresAt > now))

/-- `getDomainsToBlock` (daemon, lines 63-67): the mirrored blocklist minus
domains with an active allowance, compared by **exact** lowercased string
equality (`Set.has`). -/
def getDomainsToBlock (s : DaemonState) (now : ℚ) : List Str :=
  let active := daemonActiveAllowances s now
  let allowedDomains := active.map (fun a => lowerStr a.domain)
  s.blockedDomains.filter (fun d => !(decide (lowerStr d ∈ allowedDomains)))

/-- Insertion into a JS `Set` materialized in insertion order
(`Set.add` followed by `Array.from`). -/
def addU (l : List Str) (x : Str) : List Str :=
  if x ∈ l then l else l ++ [x]

/-- `pfxB pat s`: does `s` start with `pat`?  (Helper for the JS
`String.prototype.indexOf` / `includes` model.) -/
def pfxB : Str → Str → Bool
  | [], _ => true
  | _ :: _, [] => false
  | a :: p, b :: s => decide (a = b) && pfxB p s

/-- `s.indexOf(pat)` as `Option ℕ` (`none` for `-1`): index of the first
occurrence of `pat` in `s`. -/
def idxOf (pat : Str) : Str → Option ℕ
  | [] => if pat = [] then some 0 else none
  | c :: s => if pfxB pat (c :: s) then some 0 else (idxOf pat s).map (· + 1)

/-- `s.includes(pat)` (`indexOf !== -1`). -/
def containsSub (pat s : Str) : Bool := (idxOf pat s).isSome

/-- `collectAllDomainsWithVariants` (daemon, lines 69-90): every domain, its
`www.` variant unless it already starts with `www.`, plus the fixed variant
tables for the `youtube.com` (substring test), `twitter.com` / `x.com`
(exact match) and `reddit.com` (substring test) families — split into
one named stage per source `if` so that each is provable separately.
`wwwStage` is the `www.` addition. -/
def wwwStage (domain : Str) (all : List Str) : List Str :=
  if !(pfxB "www.".toList domain) then addU all ("www.".toList ++ domain)
  else all

/-- The `domain.includes('youtube.com')` variant additions. -/
def youtubeStage (domain : Str) (all : List Str) : List Str :=
  if containsSub "youtube.com".toList domain then
    (["m.youtube.com".toList, "music.youtube.com".toList,
      "youtu.be".toList, "youtube-nocookie.com".toList]).foldl addU all
  else all

/-- The `domain === 'twitter.com' || domain === 'x.com'` variant additions. -/
def twitterStage (domain : Str) (all : List Str) : List Str :=
  if decide (domain = "twitter.com".toList) || decide (domain = "x.com".toList) then
    (["mobile.twitter.com".toList, "mobile.x.com".toList]).foldl addU all
  else all

/-- The `domain.includes('reddit.com')` variant additions. -/
def redditStage (domain : Str) (all : List Str) : List Str :=
  if containsSub "reddit.com".toList domain then
    (["old.reddit.com".toList, "new.reddit.com".toList,
      "i.reddit.com".toList]).foldl addU all
  else all

/-- The complete loop body for one domain: the domain itself, its `www.`
variant unless already `www.`-prefixed, then the family tables in source
order. -/
def variantStep (all : List Str) (domain : Str) : List Str :=
  redditStage domain (twitterStage domain (youtubeStage domain
    (wwwStage domain (addU all domain))))

def collectAllDomainsWithVariants (domains : List Str) : List Str :=
  domains.foldl variantStep []

/-! ### The hosts-file rewrite (`updateHostsFile`, daemon lines 92-120) -/

/-- `# BEGIN FOCUS SHIELD BLOCK` -/
def MARKER_START : Str := "# BEGIN FOCUS SHIELD BLOCK".toList

/-- `# END FOCUS SHIELD BLOCK` -/
def MARKER_END : Str := "# END FOCUS SHIELD BLOCK".toList

/-- JavaScript whitespace as relevant to `trimEnd` on host-file content. -/
def isWsChar (c : Char) : Bool :=
  decide (c = ' ') || decide (c = '\t') || decide (c = '\n') || decide (c = '\r') ||
    decide (c = '\x0b') || decide (c = '\x0c')

/-- `s.trimEnd()`. -/
def trimEnd (s : Str) : Str := ((s.reverse).dropWhile isWsChar).reverse

/-- Strip the sentinel region: when both markers are found,
`content.slice(0, startIdx) + content.slice(endIdx + MARKER_END.length)`. -/
def stripRegion (content : Str) : Str :=
  match idxOf MARKER_START content, idxOf MARKER_END content with
  | some startIdx, some endIdx =>
      content.take startIdx ++ content.drop (endIdx + MARKER_END.length)
  | _, _ => content

/-- One decimal digit to its character. -/
def digitChar10 (n : ℕ) : Char :=
  (['0', '1', '2', '3', '4', '5', '6', '7', '8', '9']).getD n '0'

/-- Fuel-driven digit accumulation (structural recursion, so that concrete
instances reduce inside `decide`). -/
def natToCharsAux : ℕ → ℕ → Str
  | 0, _ => []
  | fuel + 1, n =>
      if n < 10 then [digitChar10 n]
      else natToCharsAux fuel (n / 10) ++ [digitChar10 (n % 10)]

/-- Decimal rendering of a natural number (JS number-to-string for the
non-negative integers that occur in the generated host-file comment). -/
def natToChars (n : ℕ) : Str := natToCharsAux (n + 1) n

/-- The `# Generated: <iso>` line (with trailing newline). -/
def genLine (ts : Str) : Str := "# Generated: ".toList ++ ts ++ ['\n']

/-- The `# Blocking <n> domains` line (with trailing newline). -/
def countLine (n : ℕ) : Str :=
  "# Blocking ".toList ++ natToChars n ++ " domains".toList ++ ['\n']

/-- The per-domain block entries: `0.0.0.0 <d>` then `:: <d>`. -/
def entriesText : List Str → Str
  | [] => []
  | d :: rest =>
      "0.0.0.0 ".toList ++ d ++ ['\n'] ++ ":: ".toList ++ d ++ ['\n'] ++ entriesText rest

/-- The full sentinel region appended in the shield-active branch:
`'\n' + MARKER_START + '\n' + genLine + countLine + entries + MARKER_END + '\n'`. -/
def regionText (ts : Str) (allDomains : List Str) : Str :=
  ['\n'] ++ MARKER_START ++ ['\n'] ++ genLine ts ++ countLine allDomains.length ++
    entriesText allDomains ++ MARKER_END ++ ['\n']

/-- `updateHostsFile` as a pure content transformation: strip any existing
region, normalize the tail to a single newline, and append a fresh region
when the shield is active and the variant-expanded effective set is
non-empty. -/
def hostsUpdate (s : DaemonState) (now : ℚ) (ts : Str) (content : Str) : Str :=
  let domainsToBlock := getDomainsToBlock s now
  let allDomains := collectAllDomainsWithVariants domainsToBlock
  let base := trimEnd (stripRegion content) ++ ['\n']
  if s.shieldActive && !allDomains.isEmpty then base ++ regionText ts allDomains
  else base

/-! ### Reified file-system / process effects -/

/-- A file-system or process effect performed by the daemon, in program
order.  `fwrite` is `fs.writeFileSync(path, content)`; there is a `frename`
constructor so that the presence or absence of an atomic
write-temp-then-rename step is expressible. -/
inductive Eff where
  | mkdirp (path : Str)
  | fwrite (path : Str) (content : Str)
  | frename (src dst : Str)
  | run (cmd : Str)
  | listen (path : Str)
deriving DecidableEq

/-- `/tmp/focusshield.sock` -/
def SOCKET_PATH : Str := "/tmp/focusshield.sock".toList

/-- `/etc/hosts` -/
def HOSTS_PATH : Str := "/etc/hosts".toList

/-- `/etc/pf.anchors/com.welf.focusshield` -/
def PF_ANCHOR_PATH : Str := "/etc/pf.anchors/com.welf.focusshield".toList

/-- `/etc/pf.conf` -/
def PF_CONF_PATH : Str := "/etc/pf.conf".toList

/-- `/Library/Application Support/FocusShield/state.json` -/
def STATE_PATH : Str := "/Library/Application Support/FocusShield/state.json".toList

/-- `path.dirname(STATE_PATH)` -/
def STATE_DIR : Str := "/Library/Application Support/FocusShield".toList

/-- Decimal rendering of an integer. -/
def intToChars (i : ℤ) : Str :=
  if i < 0 then '-' :: natToChars i.natAbs else natToChars i.natAbs

/-- Rendering of a rational as `num/den`.  This abstracts the exact
`JSON.stringify` number formatting; claim C2 concerns the write discipline,
not the byte format, which this injective rendering preserves. -/
def ratToChars (q : ℚ) : Str :=
  intToChars q.num ++ ['/'] ++ natToChars q.den

/-- `[x, y, z]` rendering of a list of already-rendered items. -/
def jsonArr (items : List Str) : Str :=
  '[' :: (items.foldr (fun x acc => if acc = [] then x else x ++ [','] ++ acc) []) ++ [']']

/-- A JSON-string rendering (quotes, no escaping needed for domain data). -/
def jsonStr (s : Str) : Str := '"' :: s ++ ['"']

/-- The serialized daemon state written by `saveState`
(`JSON.stringify(state, null, 2)`, whitespace abstracted). -/
def stateJson (s : DaemonState) : Str :=
  Char.ofNat 123 ::
    ("\"blockedDomains\":".toList ++ jsonArr (s.blockedDomains.map jsonStr) ++
     ",\"allowances\":".toList ++
       jsonArr (s.allowances.map (fun a =>
         Char.ofNat 123 :: ("\"domain\":".toList ++ jsonStr a.domain ++
           ",\"expiresAt\":".toList ++ ratToChars a.expiresAt ++
           ",\"reason\":".toList ++ jsonStr a.reason) ++ [Char.ofNat 125])) ++
     ",\"shieldActive\":".toList ++
       (if s.shieldActive then "true".toList else "false".toList) ++
     ",\"lastUpdated\":".toList ++ ratToChars s.lastUpdated) ++ [Char.ofNat 125]

/-- `saveState` (daemon, lines 49-56): `fs.mkdirSync(dir, {recursive:true})`
then a single direct `fs.writeFileSync(STATE_PATH, JSON.stringify(state))`.
No temporary file and no rename. -/
def saveStateEffs (s : DaemonState) : List Eff :=
  [Eff.mkdirp STATE_DIR, Eff.fwrite STATE_PATH (stateJson s)]

/-- `updateHostsFile` (daemon, lines 92-120) as an effect trace: one direct
`fs.writeFileSync(HOSTS_PATH, newContent)` where `newContent` is the
`hostsUpdate` transformation of the current contents. -/
def updateHostsFileEffs (s : DaemonState) (now : ℚ) (ts : Str)
    (hostsContent : Str) : List Eff :=
  [Eff.fwrite HOSTS_PATH (hostsUpdate s now ts hostsContent)]

/-- `flushDnsCache` (daemon, lines 139-147). -/
def flushDnsEffs : List Eff :=
  [Eff.run "dscacheutil -flushcache".toList,
   Eff.run "killall -HUP mDNSResponder".toList]

/-- The static pf rule body from `generatePfRules` (daemon, lines 284-343). -/
def pfStaticRules : Str :=
  ("# Block outgoing connections to blocked service IPs\n\n" ++
   "# Twitter/X Corp (AS13414)\n" ++
   "block drop out quick proto tcp to 104.244.42.0/24\n" ++
   "block drop out quick proto tcp to 104.244.43.0/24\n" ++
   "block drop out quick proto tcp to 104.244.44.0/24\n" ++
   "block drop out quick proto tcp to 104.244.45.0/24\n" ++
   "block drop out quick proto tcp to 104.244.46.0/24\n" ++
   "block drop out quick proto tcp to 69.195.160.0/24\n" ++
   "block drop out quick proto tcp to 192.133.77.0/24\n\n" ++
   "# Meta/Facebook/Instagram (AS32934)\n" ++
   "block drop out quick proto tcp to 157.240.0.0/16\n" ++
   "block drop out quick proto tcp to 31.13.0.0/16\n" ++
   "# Meta new ranges (2024+)\n" ++
   "block drop out quick proto tcp to 57.141.0.0/16\n" ++
   "block drop out quick proto tcp to 57.142.0.0/16\n" ++
   "block drop out quick proto tcp to 57.143.0.0/16\n" ++
   "block drop out quick proto tcp to 57.144.0.0/16\n" ++
   "block drop out quick proto tcp to 57.145.0.0/16\n" ++
   "block drop out quick proto tcp to 57.146.0.0/16\n" ++
   "block drop out quick proto tcp to 57.147.0.0/16\n" ++
   "block drop out quick proto tcp to 57.148.0.0/16\n" ++
   "block drop out quick proto tcp to 57.149.0.0/16\n" ++
   "block drop out quick proto tcp to 179.60.192.0/22\n" ++
   "block drop out quick proto tcp to 185.60.216.0/22\n" ++
   "block drop out quick proto tcp to 66.220.144.0/20\n" ++
   "block drop out quick proto tcp to 69.63.176.0/20\n" ++
   "block drop out quick proto tcp to 69.171.224.0/19\n" ++
   "block drop out quick proto tcp to 74.119.76.0/22\n" ++
   "block drop out quick proto tcp to 102.132.96.0/20\n" ++
   "block drop out quick proto tcp to 103.4.96.0/22\n" ++
   "block drop out quick proto tcp to 129.134.0.0/16\n" ++
   "block drop out quick proto tcp to 147.75.208.0/20\n" ++
   "block drop out quick proto tcp to 173.252.64.0/18\n" ++
   "block drop out quick proto tcp to 204.15.20.0/22\n\n" ++
   "# TikTok (ByteDance - partial)\n" ++
   "block drop out quick proto tcp to 161.117.0.0/16\n" ++
   "block drop out quick proto tcp to 162.62.0.0/16\n\n" ++
   "# Netflix (AS2906) - primary ranges\n" ++
   "block drop out quick proto tcp to 23.246.0.0/18\n" ++
   "block drop out quick proto tcp to 37.77.184.0/21\n" ++
   "block drop out quick proto tcp to 45.57.0.0/17\n" ++
   "block drop out quick proto tcp to 64.120.128.0/17\n" ++
   "block drop out quick proto tcp to 66.197.128.0/17\n" ++
   "block drop out quick proto tcp to 108.175.32.0/20\n" ++
   "block drop out quick proto tcp to 185.2.220.0/22\n" ++
   "block drop out quick proto tcp to 185.9.188.0/22\n" ++
   "block drop out quick proto tcp to 192.173.64.0/18\n" ++
   "block drop out quick proto tcp to 198.38.96.0/19\n" ++
   "block drop out quick proto tcp to 198.45.48.0/20\n" ++
   "block drop out quick proto tcp to 208.75.76.0/22\n").toList

/-- `generatePfRules` (daemon): generation header plus the static ranges. -/
def generatePfRules (ts : Str) : Str :=
  "# cc-focus pf rules - generated ".toList ++ ts ++ ['\n'] ++ pfStaticRules

/-- The anchor reference lines appended once to `/etc/pf.conf`. -/
def pfAnchorLines : Str :=
  ("\nanchor \"com.welf.focusshield\"\n" ++
   "load anchor \"com.welf.focusshield\" from \"/etc/pf.anchors/com.welf.focusshield\"\n").toList

/-- `updatePfRules` (daemon, lines 122-137): write the anchor file
(`rules || '# No rules\n'`), append the anchor reference to `pf.conf` if it
is not already mentioned, and reload pf. -/
def updatePfRulesEffs (rules : Str) (pfConf : Str) : List Eff :=
  [Eff.fwrite PF_ANCHOR_PATH (if rules = [] then "# No rules\n".toList else rules)] ++
    (if containsSub "com.welf.focusshield".toList pfConf then []
     else [Eff.fwrite PF_CONF_PATH (pfConf ++ pfAnchorLines)]) ++
    [Eff.run "/sbin/pfctl -f /etc/pf.conf 2>&1".toList]

/-- `refreshBlocking` (daemon, lines 345-354): hosts rewrite, DNS flush,
then pf rules (static set when the shield is active, a disabled stub
otherwise). -/
def refreshBlockingEffs (s : DaemonState) (now : ℚ) (ts : Str)
    (hostsContent pfConf : Str) : List Eff :=
  updateHostsFileEffs s now ts hostsContent ++ flushDnsEffs ++
    updatePfRulesEffs
      (if s.shieldActive then generatePfRules ts else "# cc-focus pf disabled\n".toList)
      pfConf

/-- `loadState` (daemon, lines 37-47): the persisted file, when present and
parseable, replaces the in-memory defaults (`{ ...state, ...data }` with a
full persisted document); otherwise the defaults
(`blockedDomains: [], allowances: [], shieldActive: true`) remain. -/
def loadState (persisted : Option DaemonState) : DaemonState :=
  match persisted with
  | some d => d
  | none => { blockedDomains := [], allowances := [], shieldActive := true, lastUpdated := 0 }

/-- The daemon's startup sequence (lines 514-528): `loadState()`, then —
only when `state.shieldActive && state.blockedDomains.length > 0` —
`refreshBlocking()`, and only after that `server.listen(SOCKET_PATH)`.
All the enforcement work is synchronous (`writeFileSync` / `execSync`), so
the effect order is the program order. -/
def daemonStartup (persisted : Option DaemonState) (now : ℚ) (ts : Str)
    (hostsContent pfConf : Str) : List Eff :=
  let s := loadState persisted
  (if s.shieldActive && !s.blockedDomains.isEmpty then
    refreshBlockingEffs s now ts hostsContent pfConf
  else []) ++ [Eff.listen SOCKET_PATH]

/-! ### Daemon IPC handlers and the expiry ticker -/

/-- The daemon's module-level ticker bookkeeping
(`lastAllowanceCount`, `lastAllowanceDomains`). -/
structure TickerState where
  lastCount : ℕ
  lastDomains : List Str
deriving DecidableEq

/-- The `/grant` IPC handler (daemon, lines 417-441): reject 400 when
`domain` or `minutes` is falsy; otherwise drop allowances whose domain is
the same **lowercased** string, push the new record (domain lowercased,
`expiresAt = now + minutes*60*1000`), and set `lastAllowanceCount`.
`lastAllowanceDomains` is not touched.  Returns
(HTTP status, new daemon state, new ticker state). -/
def daemonGrant (s : DaemonState) (tk : TickerState) (domain : Str)
    (minutes : ℚ) (reason : Option Str) (now : ℚ) :
    ℕ × DaemonState × TickerState :=
  if domain = [] ∨ minutes = 0 then (400, s, tk)
  else
    let filtered := s.allowances.filter (fun a =>
      decide (lowerStr a.domain ≠ lowerStr domain))
    let a : DAllowance :=
      { domain := lowerStr domain
        expiresAt := now + minutes * 60 * 1000
        reason := reason.getD "Granted via daemon".toList }
    let allowances := filtered ++ [a]
    (200, { s with allowances := allowances },
      { tk with lastCount := allowances.length })

/-- The `/revoke` IPC handler's state transition (daemon, lines 443-455):
drop allowances whose lowercased domain equals the lowercased request
domain.  (The aggressive side effects are separate `Eff`s.) -/
def daemonRevoke (s : DaemonState) (domain : Str) : DaemonState :=
  { s with allowances := s.allowances.filter (fun a =>
      decide (lowerStr a.domain ≠ lowerStr domain)) }

/-- One tick of `checkAllowanceExpiry` (daemon, lines 357-390).  Returns the
pruned state, the updated ticker bookkeeping, and the list of domains for
which the full revoke cascade (`refreshBlocking`, `blockDomainIPs`,
`killConnectionsToDomain`, `closeBrowserTabs`, `flushDnsCache`) fires: the
previously observed active domains that are no longer active. -/
def checkAllowanceExpiry (s : DaemonState) (tk : TickerState) (now : ℚ) :
    DaemonState × TickerState × List Str :=
  let active := daemonActiveAllowances s now
  let activeDomains : List Str := active.map (fun a => a.domain)
  let expiredDomains := tk.lastDomains.filter (fun d => !(decide (d ∈ activeDomains)))
  let s' := if active.length = s.allowances.length then s
            else { s with allowances := active }
  (s', { lastCount := active.length, lastDomains := activeDomains }, expiredDomains)

/-! ### Character and normalization lemmas -/

/-- `Char.ofNat` of a valid codepoint round-trips through `toNat`. -/
theorem toNat_ofNat_valid (n : ℕ) (h : n.isValidChar) : (Char.ofNat n).toNat = n := by
  rw [Char.ofNat, dif_pos h]
  rfl

/-- ASCII lower-casing is idempotent. -/
theorem toLower_idem (c : Char) : c.toLower.toLower = c.toLower := by
  unfold Char.toLower
  by_cases h : c.toNat ≥ 65 ∧ c.toNat ≤ 90
  · have hv : (c.toNat + 32).isValidChar := Or.inl (by omega)
    have ht : (Char.ofNat (c.toNat + 32)).toNat = c.toNat + 32 :=
      toNat_ofNat_valid _ hv
    rw [if_pos h, ht, if_neg (by omega)]
  · rw [if_neg h, if_neg h]

/-- `toLowerCase` is idempotent on strings. -/
theorem lowerStr_idem (s : Str) : lowerStr (lowerStr s) = lowerStr s := by
  unfold lowerStr
  rw [List.map_map]
  exact List.map_congr_left (fun c _ => toLower_idem c)

/-- `stripW` either leaves the string alone or removes a literal `www.`. -/
theorem stripW_cases (s : Str) :
    stripW s = s ∨ s = 'w' :: 'w' :: 'w' :: '.' :: stripW s := by
  unfold stripW
  split
  · right; rfl
  · left; rfl

/-- Either the normalized form is the lowercased form, or the lowercased
form is `www.` followed by the normalized form. -/
theorem normalize_lower_cases (s : Str) :
    normalizeDomain s = lowerStr s ∨
      lowerStr s = 'w' :: 'w' :: 'w' :: '.' :: normalizeDomain s := by
  unfold normalizeDomain
  rcases stripW_cases (lowerStr s) with h | h
  · exact Or.inl h
  · exact Or.inr h

/-- The raw subdomain-inclusive matching relation of the spec:
`q == p` or `q` ends with `"." + p`. -/
def rawMatches (q p : Str) : Prop := q = p ∨ ('.' :: p) <:+ q

/-- A match between raw strings survives normalization: if `q` equals `p` or
ends in `"." + p`, then `normalizeDomain q` equals `normalizeDomain p` or
ends in `"." + normalizeDomain p`. -/
theorem rawMatches_normalize {q p : Str} (h : rawMatches q p) :
    rawMatches (normalizeDomain q) (normalizeDomain p) := by
  have hlq := normalize_lower_cases q
  have hlp := normalize_lower_cases p
  have hmap : rawMatches (lowerStr q) (lowerStr p) := by
    rcases h with h | h
    · exact Or.inl (by rw [h])
    · right
      have := h.map Char.toLower
      simpa [lowerStr] using this
  rcases hmap with hq | hq
  · -- lowercased forms are equal, hence the normalized forms are equal
    left
    unfold normalizeDomain
    rw [hq]
  · -- `'.' :: lowerStr p <:+ lowerStr q`
    rcases hlq with hA | hB
    · -- normalizeDomain q = lowerStr q
      rcases hlp with hC | hD
      · right; rw [hA, hC]; exact hq
      · right
        have h1 : ('.' :: normalizeDomain p) <:+ lowerStr p := by
          rw [hD]; exact ⟨['w', 'w', 'w'], rfl⟩
        have h2 : lowerStr p <:+ ('.' :: lowerStr p) := List.suffix_cons _ _
        rw [hA]
        exact h1.trans (h2.trans hq)
    · -- lowerStr q = www. ++ normalizeDomain q
      rw [hB] at hq
      rcases List.suffix_cons_iff.mp hq with heq | hq1
      · exact absurd (List.head_eq_of_cons_eq heq) (by decide)
      rcases List.suffix_cons_iff.mp hq1 with heq | hq2
      · exact absurd (List.head_eq_of_cons_eq heq) (by decide)
      rcases List.suffix_cons_iff.mp hq2 with heq | hq3
      · exact absurd (List.head_eq_of_cons_eq heq) (by decide)
      rcases List.suffix_cons_iff.mp hq3 with heq | hq4
      · -- '.' :: lowerStr p = '.' :: normalizeDomain q
        have hpq : lowerStr p = normalizeDomain q := List.tail_eq_of_cons_eq heq
        rcases hlp with hC | hD
        · left; rw [← hC] at hpq; rw [hpq]
        · right
          rw [hD] at hpq
          rw [← hpq]
          exact ⟨['w', 'w', 'w'], rfl⟩
      · -- '.' :: lowerStr p <:+ normalizeDomain q
        rcases hlp with hC | hD
        · right; rw [← hC] at hq4; exact hq4
        · right
          have h1 : ('.' :: normalizeDomain p) <:+ lowerStr p := by
            rw [hD]; exact ⟨['w', 'w', 'w'], rfl⟩
          have h2 : lowerStr p <:+ ('.' :: lowerStr p) := List.suffix_cons _ _
          exact h1.trans (h2.trans hq4)

/-- Claim C5 counterexample input: the blocklist holds `example.com` and an
active allowance exists for `sub.example.com` only. -/
def c5ps : PolicyStore :=
  { blockedDomains := ["example.com".toList]
    delayedDomains := []
    allowances := [⟨"sub.example.com".toList, 100, [], 5⟩]
    hardLockouts := [] }

/-- Claim C5, as stated, is false: with blocklist entry `p = example.com`
and query `q = sub.example.com` (which ends with `"." + p`), `p` itself has
no active allowance — no allowance's stored domain equals `p` or covers `p`
— yet `isDomainBlocked q` is `false`, because the active allowance granted
on the subdomain `sub.example.com` covers the query. -/
theorem c5_allowance_on_subdomain_counterexample :
    ("sub.example.com".toList = "example.com".toList ∨
       ('.' :: "example.com".toList) <:+ "sub.example.com".toList) ∧
    "example.com".toList ∈ c5ps.blockedDomains ∧
    (∀ a ∈ c5ps.allowances, a.expiresAt > 0 →
       a.domain ≠ "example.com".toList ∧
       matchesDomain "example.com".toList a.domain = false) ∧
    isDomainBlocked c5ps 0 "sub.example.com".toList = false := by
  decide

/-- Claim C5 (amended): for every blocklist pattern `p` and query `q` with
`q == p` or `q` ending in `"." + p`, if no active allowance covers the
normalized query (under the code's `matchesDomain` check), then
`isDomainBlocked q` is true. -/
theorem c5_subdomain_coverage (ps : PolicyStore) (now : ℚ) (p q : Str)
    (hp : p ∈ ps.blockedDomains)
    (hq : q = p ∨ ('.' :: p) <:+ q)
    (hallow : ∀ a ∈ ps.allowances, a.expiresAt > now →
      matchesDomain (normalizeDomain q) a.domain = false) :
    isDomainBlocked ps now q = true := by
  unfold isDomainBlocked
  have hmatch := rawMatches_normalize (show rawMatches q p from hq)
  have hin : (ps.blockedDomains.any (fun b =>
      let nb := normalizeDomain b
      decide (normalizeDomain q = nb) ||
        decide (('.' :: nb) <:+ normalizeDomain q))) = true := by
    refine List.any_eq_true.mpr ⟨p, hp, ?_⟩
    rcases hmatch with h | h
    · simp [h]
    · simp [h]
  simp only [hin, Bool.not_true, Bool.false_eq_true, if_false]
  have hall : (ps.allowances.any (fun a =>
      matchesDomain (normalizeDomain q) a.domain &&
        decide (a.expiresAt > now))) = false := by
    rw [List.any_eq_false]
    intro a ha
    by_cases hexp : a.expiresAt > now
    · rw [hallow a ha hexp]; simp
    · simp [hexp]
  rw [hall]
  rfl

/-- Claim C5 witness: a concrete instance of the amended subdomain-coverage
theorem. -/
theorem c5_subdomain_coverage_witness :
    isDomainBlocked
      { blockedDomains := ["news.com".toList], delayedDomains := [],
        allowances := [], hardLockouts := [] } 0 "a.news.com".toList = true :=
  c5_subdomain_coverage _ 0 "news.com".toList "a.news.com".toList
    (by decide) (by decide) (by intro a ha; simp at ha)

/-- Modelled from claim C4's words, for comparison with the source: the
blocklist minus every domain `d` such that some active allowance `a`
matches `d` under the subdomain-inclusive rule (`d == a.domain`, or `d`
ends with `"." + a.domain`). -/
def specDomainsToBlock (s : DaemonState) (now : ℚ) : List Str :=
  s.blockedDomains.filter (fun d =>
    !((daemonActiveAllowances s now).any (fun a =>
      decide (d = a.domain) || decide (('.' :: a.domain) <:+ d))))

/-- Claim C4 counterexample input: blocklist `[m.example.com]` and an
active allowance on the parent `example.com`. -/
def c4s : DaemonState :=
  { blockedDomains := ["m.example.com".toList]
    allowances := [⟨"example.com".toList, 100, []⟩]
    shieldActive := true
    lastUpdated := 0 }

/-- Claim C4, as stated, is false: with an active allowance on
`example.com`, the subdomain-inclusive rule of the claim would remove the
blocklist entry `m.example.com` from the applied set, but the daemon's
`getDomainsToBlock` — which compares by exact lowercased equality — keeps
blocking it. -/
theorem c4_subdomain_allowance_counterexample :
    specDomainsToBlock c4s 0 = [] ∧
    getDomainsToBlock c4s 0 = ["m.example.com".toList] := by
  decide

/-- Claim C4 (amended): the daemon's computed domains-to-block is the
mirrored blocklist minus exactly those domains whose **lowercased form
equals** the lowercased domain of some active allowance; subdomain-matching
plays no role in the daemon's effective set. -/
theorem c4_domains_to_block_exact (s : DaemonState) (now : ℚ) (d : Str) :
    d ∈ getDomainsToBlock s now ↔
      d ∈ s.blockedDomains ∧
        ∀ a ∈ daemonActiveAllowances s now, lowerStr a.domain ≠ lowerStr d := by
  unfold getDomainsToBlock
  rw [List.mem_filter]
  constructor
  · rintro ⟨hmem, hpred⟩
    refine ⟨hmem, ?_⟩
    intro a ha heq
    simp only [Bool.not_eq_true', decide_eq_false_iff_not] at hpred
    exact hpred (List.mem_map.mpr ⟨a, ha, heq⟩)
  · rintro ⟨hmem, hall⟩
    refine ⟨hmem, ?_⟩
    simp only [Bool.not_eq_true', decide_eq_false_iff_not]
    intro hcontra
    rcases List.mem_map.mp hcontra with ⟨a, ha, heq⟩
    exact hall a ha heq

/-- Claim C9 counterexample: starting from an empty mirror, grant
`www.x.com` and then `x.com` through the daemon's `/grant` handler.  Both
allowances survive and are active, and both canonicalize to `x.com`: the
second grant did not remove the existing allowance whose domain
canonicalizes to the same canonical domain. -/
theorem c9_daemon_www_duplicate_counterexample :
    (let g1 := daemonGrant ⟨[], [], true, 0⟩ ⟨0, []⟩ "www.x.com".toList 5 none 0
     let g2 := daemonGrant g1.2.1 g1.2.2 "x.com".toList 5 none 1000
     g2.2.1.allowances.map (fun a => a.domain) =
        ["www.x.com".toList, "x.com".toList] ∧
     g2.2.1.allowances.map (fun a => normalizeDomain a.domain) =
        ["x.com".toList, "x.com".toList] ∧
     ∀ a ∈ g2.2.1.allowances, a.expiresAt > 1000) := by
  refine ⟨by decide, by decide, ?_⟩
  norm_num [daemonGrant, List.filter, lowerStr]
  decide

/-- Claim C9 (amended): each grant path keeps at most one allowance per its
own exact key — the store keys by the (normalized) stored domain string, the
daemon keys by the lowercased domain string; pairwise distinctness of those
keys is preserved by `grantAllowance` and by the `/grant` handler.  (Per
*canonical* domain the daemon mirror can still hold duplicates, as the
counterexample shows.) -/
theorem c9_per_key_uniqueness :
    (∀ (ps : PolicyStore) (d : Str) (m : ℚ) (r : Str) (now : ℚ),
      List.Pairwise (fun a b : Allowance => a.domain ≠ b.domain) ps.allowances →
      List.Pairwise (fun a b : Allowance => a.domain ≠ b.domain)
        ((grantAllowance ps d m r now).1.allowances)) ∧
    (∀ (s : DaemonState) (tk : TickerState) (d : Str) (m : ℚ)
        (reason : Option Str) (now : ℚ),
      List.Pairwise (fun a b : DAllowance => lowerStr a.domain ≠ lowerStr b.domain)
        s.allowances →
      List.Pairwise (fun a b : DAllowance => lowerStr a.domain ≠ lowerStr b.domain)
        ((daemonGrant s tk d m reason now).2.1.allowances)) := by
  constructor
  · intro ps d m r now hpw
    unfold grantAllowance
    rw [List.pairwise_append]
    refine ⟨hpw.filter _, List.pairwise_singleton _ _, ?_⟩
    intro a ha b hb
    have hane : decide (a.domain ≠ normalizeDomain d) = true := (List.mem_filter.mp ha).2
    have hbd : b.domain = normalizeDomain d := by
      rcases List.mem_singleton.mp hb with rfl
      rfl
    rw [hbd]
    exact of_decide_eq_true hane
  · intro s tk d m reason now hpw
    unfold daemonGrant
    by_cases hval : d = [] ∨ m = 0
    · rw [if_pos hval]
      exact hpw
    · rw [if_neg hval]
      simp only
      rw [List.pairwise_append]
      refine ⟨hpw.filter _, List.pairwise_singleton _ _, ?_⟩
      intro a ha b hb
      have hane : decide (lowerStr a.domain ≠ lowerStr d) = true := (List.mem_filter.mp ha).2
      have hbd : b.domain = lowerStr d := by
        rcases List.mem_singleton.mp hb with rfl
        rfl
      rw [hbd]
      intro hcontra
      apply of_decide_eq_true hane
      rw [hcontra]
      unfold lowerStr
      rw [List.map_map]
      exact List.map_congr_left (fun c _ =>
        show (Char.toLower ∘ Char.toLower) c = Char.toLower c from toLower_idem c)

/-- Claim C9 witness: concrete instances of both parts of the per-key
uniqueness theorem. -/
theorem c9_per_key_uniqueness_witness :
    List.Pairwise (fun a b : Allowance => a.domain ≠ b.domain)
      ((grantAllowance ⟨[], [], [⟨"a.com".toList, 9, [], 1⟩], []⟩
          "b.com".toList 5 [] 0).1.allowances) ∧
    List.Pairwise (fun a b : DAllowance => lowerStr a.domain ≠ lowerStr b.domain)
      ((daemonGrant ⟨[], [⟨"a.com".toList, 9, []⟩], true, 0⟩ ⟨1, []⟩
          "b.com".toList 5 none 0).2.1.allowances) :=
  ⟨c9_per_key_uniqueness.1 _ _ _ _ _ (by decide),
   c9_per_key_uniqueness.2 _ _ _ _ _ _ (by decide)⟩

/-- Claim C6 counterexample: an allowance that is granted and expires
within a single sweep period never receives the revoke cascade.  Tick at
30000; grant `x.com` for 0.1 minutes at 31000 (expiry 37000); ticks at
60000 and 90000 both compute an empty cascade set, because the allowance
was never observed in any tick's active set — refuting "every allowance
that expires receives the cascade at least once by one sweep period after
its expiry". -/
theorem c6_subperiod_allowance_counterexample :
    (let t1 := checkAllowanceExpiry ⟨[], [], true, 0⟩ ⟨0, []⟩ 30000
     let g := daemonGrant t1.1 t1.2.1 "x.com".toList (1/10) none 31000
     let t2 := checkAllowanceExpiry g.2.1 g.2.2 60000
     let t3 := checkAllowanceExpiry t2.1 t2.2.1 90000
     g.2.1.allowances.map (fun a => a.domain) = ["x.com".toList] ∧
     g.2.1.allowances.map (fun a => a.expiresAt) = [37000] ∧
     t1.2.2 = [] ∧ t2.2.2 = [] ∧ t3.2.2 = []) := by
  refine ⟨?_, ?_, ?_, ?_, ?_⟩ <;>
    norm_num [checkAllowanceExpiry, daemonGrant, daemonActiveAllowances, List.filter] <;>
    decide

/-- Claim C6 (amended): on every tick, the cascade domain set is exactly
the previously observed active-domain set minus the currently active one;
consequently an allowance domain that **was observed active at some tick**
and has expired by a later tick is cascaded at that tick. -/
theorem c6_cascade_exact_diff :
    (∀ (s : DaemonState) (tk : TickerState) (now : ℚ) (d : Str),
      d ∈ (checkAllowanceExpiry s tk now).2.2 ↔
        d ∈ tk.lastDomains ∧
          d ∉ (daemonActiveAllowances s now).map (fun a => a.domain)) ∧
    (∀ (s : DaemonState) (tk : TickerState) (now : ℚ)
        (s₂ : DaemonState) (now₂ : ℚ) (d : Str),
      d ∈ ((checkAllowanceExpiry s tk now).2.1).lastDomains →
      d ∉ (daemonActiveAllowances s₂ now₂).map (fun a => a.domain) →
      d ∈ (checkAllowanceExpiry s₂ (checkAllowanceExpiry s tk now).2.1 now₂).2.2) := by
  have hmain : ∀ (s : DaemonState) (tk : TickerState) (now : ℚ) (d : Str),
      d ∈ (checkAllowanceExpiry s tk now).2.2 ↔
        d ∈ tk.lastDomains ∧
          d ∉ (daemonActiveAllowances s now).map (fun a => a.domain) := by
    intro s tk now d
    unfold checkAllowanceExpiry
    simp only [List.mem_filter, Bool.not_eq_true', decide_eq_false_iff_not]
  refine ⟨hmain, ?_⟩
  intro s tk now s₂ now₂ d hobs hgone
  exact (hmain s₂ _ now₂ d).mpr ⟨hobs, hgone⟩

/-- Claim C6 witness: a concrete tick where the cascade fires for exactly
the previously-active, now-expired domain. -/
theorem c6_cascade_exact_diff_witness :
    "x.com".toList ∈
      (checkAllowanceExpiry ⟨[], [⟨"x.com".toList, 50, []⟩], true, 0⟩
        ⟨1, ["x.com".toList]⟩ 100).2.2 :=
  (c6_cascade_exact_diff.1 _ _ 100 _).mpr ⟨by decide, by decide⟩

/-- Modelled from claim C2's words: every write in the trace targets a
temporary path that is subsequently renamed (atomically) onto a different,
final path. -/
def writesViaRename (effs : List Eff) : Prop :=
  ∀ p c, Eff.fwrite p c ∈ effs → ∃ dst, p ≠ dst ∧ Eff.frename p dst ∈ effs

/-- Claim C2, as stated, is false: neither the daemon's state persistence
nor its host-file rewrite uses a temp-file-plus-rename step — both traces
contain a direct write to the final path and no rename at all. -/
theorem c2_direct_write_counterexample :
    ¬ writesViaRename (saveStateEffs ⟨[], [], true, 0⟩) ∧
    ¬ writesViaRename
        (updateHostsFileEffs ⟨["a.com".toList], [], true, 0⟩ 0 "T".toList "x".toList) := by
  constructor
  · intro h
    rcases h STATE_PATH (stateJson ⟨[], [], true, 0⟩) (by simp [saveStateEffs]) with
      ⟨dst, _, hmem⟩
    simp [saveStateEffs] at hmem
  · intro h
    rcases h HOSTS_PATH
        (hostsUpdate ⟨["a.com".toList], [], true, 0⟩ 0 "T".toList "x".toList)
        (by simp [updateHostsFileEffs]) with ⟨dst, _, hmem⟩
    simp [updateHostsFileEffs] at hmem

/-- Claim C2 (amended): the daemon's durable writes — its persisted state
file and the OS host file — are single direct whole-file `writeFileSync`
calls to the target path; no temporary file is written and no rename is
performed, so a crash mid-write can leave a partially written file. -/
theorem c2_writes_are_direct :
    ∀ (s : DaemonState) (now : ℚ) (ts c : Str),
      saveStateEffs s = [Eff.mkdirp STATE_DIR, Eff.fwrite STATE_PATH (stateJson s)] ∧
      updateHostsFileEffs s now ts c = [Eff.fwrite HOSTS_PATH (hostsUpdate s now ts c)] ∧
      (∀ a b, Eff.frename a b ∉ saveStateEffs s) ∧
      (∀ a b, Eff.frename a b ∉ updateHostsFileEffs s now ts c) := by
  intro s now ts c
  refine ⟨rfl, rfl, ?_, ?_⟩
  · intro a b
    simp [saveStateEffs]
  · intro a b
    simp [updateHostsFileEffs]

/-- Claim C10: the loopback `POST /api/grant` performs no range validation
on `minutes`: any non-empty domain and non-zero minutes — greater than 30,
fractional, or negative — yields HTTP 200 and a recorded allowance with
`expiresAt = now + minutes·60000` (in the past when `minutes < 0`). -/
theorem c10_grant_no_range_validation (ps : PolicyStore) (domain : Str)
    (minutes : ℚ) (reason : Option Str) (now : ℚ)
    (hd : domain ≠ []) (hm : minutes ≠ 0) :
    (serverGrant ps domain minutes reason now).1 = 200 ∧
    ∃ a, a ∈ (serverGrant ps domain minutes reason now).2.allowances ∧
      a.domain = normalizeDomain domain ∧
      a.expiresAt = now + minutes * 60000 ∧
      a.grantedMinutes = minutes ∧
      (minutes < 0 → a.expiresAt < now) := by
  unfold serverGrant
  rw [if_neg (by tauto)]
  refine ⟨rfl,
    ⟨⟨normalizeDomain domain, now + minutes * 60 * 1000,
        reason.getD ("Granted via API".toList), minutes⟩, ?_, rfl, by ring, rfl, ?_⟩⟩
  · unfold grantAllowance
    simp
  · intro hneg
    show now + minutes * 60 * 1000 < now
    have hlt : minutes * 60 * 1000 < 0 := by nlinarith
    linarith

/-- Claim C10 witness: granting `x.com` for −5 minutes succeeds and
records an already-expired allowance. -/
theorem c10_grant_no_range_validation_witness :
    (serverGrant ⟨[], [], [], []⟩ "x.com".toList (-5) none 1000).1 = 200 ∧
    ∃ a, a ∈ (serverGrant ⟨[], [], [], []⟩ "x.com".toList (-5) none 1000).2.allowances ∧
      a.domain = normalizeDomain "x.com".toList ∧
      a.expiresAt = 1000 + (-5) * 60000 ∧
      a.grantedMinutes = (-5) ∧
      ((-5 : ℚ) < 0 → a.expiresAt < 1000) :=
  c10_grant_no_range_validation ⟨[], [], [], []⟩ "x.com".toList (-5) none 1000
    (by decide) (by norm_num)

/-- Claim C1: the hard-lockout veto is the documented intent (README
`/api/lock` endpoints, the MCP tools' refusals, and the store's lockout
helpers), but `src/server.ts`'s REST handlers never consult `isHardLocked`:
with an active lockout on `twitter.com`, `POST /api/grant` answers 200 and
records the allowance, and `DELETE /api/block/twitter.com` answers 200 and
removes the domain — the policy store is mutated, not protected, and no 403
is produced. -/
theorem c1_hard_lockout_not_enforced :
    (let tw := "twitter.com".toList
     let ps : PolicyStore := ⟨[tw], [], [], [⟨tw, 100⟩]⟩
     isHardLocked ps 0 tw = true ∧
     (serverGrant ps tw 5 none 0).1 = 200 ∧
     (serverGrant ps tw 5 none 0).2.allowances.map (fun a => a.domain) = [tw] ∧
     (serverDeleteBlock ps tw).1 = 200 ∧
     (serverDeleteBlock ps tw).2.blockedDomains = []) := by
  decide

/-- Claim C3: when the loaded mirror has the shield on and a non-empty
blocklist, the daemon's startup effect trace applies both enforcement
surfaces — the host-file rewrite and the pf anchor write — strictly before
the `server.listen` step that starts accepting IPC. -/
theorem c3_enforce_before_listen (p : Option DaemonState) (now : ℚ)
    (ts hostsContent pfConf : Str)
    (hshield : (loadState p).shieldActive = true)
    (hnonempty : (loadState p).blockedDomains ≠ []) :
    ∃ pre, daemonStartup p now ts hostsContent pfConf =
        pre ++ [Eff.listen SOCKET_PATH] ∧
      Eff.fwrite HOSTS_PATH
        (hostsUpdate (loadState p) now ts hostsContent) ∈ pre ∧
      Eff.fwrite PF_ANCHOR_PATH (generatePfRules ts) ∈ pre := by
  refine ⟨refreshBlockingEffs (loadState p) now ts hostsContent pfConf, ?_, ?_, ?_⟩
  · have hcond : ((loadState p).shieldActive &&
        !(loadState p).blockedDomains.isEmpty) = true := by
      rw [hshield]
      simp [hnonempty]
    simp [daemonStartup, hcond]
  · simp [refreshBlockingEffs, updateHostsFileEffs]
  · have hne : generatePfRules ts ≠ [] := by
      unfold generatePfRules
      simp [String.toList]
    simp [refreshBlockingEffs, updatePfRulesEffs, hshield, hne, updateHostsFileEffs,
      flushDnsEffs]

/-- Claim C3 witness: a concrete persisted mirror with the shield on and
one blocked domain. -/
theorem c3_enforce_before_listen_witness :
    ∃ pre, daemonStartup (some ⟨["a.com".toList], [], true, 0⟩) 0 "T".toList
        "h".toList "pf".toList = pre ++ [Eff.listen SOCKET_PATH] ∧
      Eff.fwrite HOSTS_PATH
        (hostsUpdate (loadState (some ⟨["a.com".toList], [], true, 0⟩)) 0 "T".toList
          "h".toList) ∈ pre ∧
      Eff.fwrite PF_ANCHOR_PATH (generatePfRules "T".toList) ∈ pre :=
  c3_enforce_before_listen (some ⟨["a.com".toList], [], true, 0⟩) 0 "T".toList
    "h".toList "pf".toList (by decide) (by decide)

/-! ### Membership lemmas for the variant expansion (claim C8) -/

/-- `addU` keeps existing members. -/
theorem mem_addU_of_mem {l : List Str} {x y : Str} (h : x ∈ l) : x ∈ addU l y := by
  unfold addU
  split
  · exact h
  · exact List.mem_append_left _ h

/-- `addU` contains the inserted element. -/
theorem mem_addU_self (l : List Str) (x : Str) : x ∈ addU l x := by
  unfold addU
  split
  · assumption
  · exact List.mem_append_right _ (List.mem_singleton.mpr rfl)

/-- Folding `addU` keeps existing members. -/
theorem mem_foldl_addU_of_mem {acc : List Str} {x : Str} (vs : List Str)
    (h : x ∈ acc) : x ∈ vs.foldl addU acc := by
  induction vs generalizing acc with
  | nil => exact h
  | cons v vs ih => exact ih (mem_addU_of_mem h)

/-- Folding `addU` inserts every element of the folded list. -/
theorem mem_foldl_addU_self {vs : List Str} {v : Str} (acc : List Str)
    (h : v ∈ vs) : v ∈ vs.foldl addU acc := by
  induction vs generalizing acc with
  | nil => cases h
  | cons w ws ih =>
      rcases List.mem_cons.mp h with rfl | hmem
      · exact mem_foldl_addU_of_mem ws (mem_addU_self acc v)
      · exact ih _ hmem

/-- Each stage keeps existing members. -/
theorem mem_stages_of_mem {x d : Str} :
    (∀ l, x ∈ l → x ∈ wwwStage d l) ∧ (∀ l, x ∈ l → x ∈ youtubeStage d l) ∧
    (∀ l, x ∈ l → x ∈ twitterStage d l) ∧ (∀ l, x ∈ l → x ∈ redditStage d l) := by
  refine ⟨?_, ?_, ?_, ?_⟩ <;>
    (intro l h
     first
       | unfold wwwStage
       | unfold youtubeStage
       | unfold twitterStage
       | unfold redditStage) <;>
    split <;>
    first
      | exact h
      | exact mem_addU_of_mem h
      | exact mem_foldl_addU_of_mem _ h

/-- `variantStep` keeps existing members. -/
theorem mem_variantStep_of_mem {all : List Str} {x d : Str} (h : x ∈ all) :
    x ∈ variantStep all d :=
  mem_stages_of_mem.2.2.2 _ (mem_stages_of_mem.2.2.1 _ (mem_stages_of_mem.2.1 _
    (mem_stages_of_mem.1 _ (mem_addU_of_mem h))))

/-- `variantStep` inserts the domain itself. -/
theorem mem_variantStep_self (all : List Str) (d : Str) : d ∈ variantStep all d :=
  mem_stages_of_mem.2.2.2 _ (mem_stages_of_mem.2.2.1 _ (mem_stages_of_mem.2.1 _
    (mem_stages_of_mem.1 _ (mem_addU_self all d))))

/-- `variantStep` inserts the `www.` variant when the domain does not
already start with `www.`. -/
theorem mem_variantStep_www {all : List Str} {d : Str}
    (hw : pfxB "www.".toList d = false) :
    ("www.".toList ++ d) ∈ variantStep all d := by
  refine mem_stages_of_mem.2.2.2 _ (mem_stages_of_mem.2.2.1 _
    (mem_stages_of_mem.2.1 _ ?_))
  unfold wwwStage
  rw [hw]
  exact mem_addU_self _ _

/-- `variantStep` inserts the YouTube family variants. -/
theorem mem_variantStep_youtube {all : List Str} {d v : Str}
    (hy : containsSub "youtube.com".toList d = true)
    (hv : v ∈ ["m.youtube.com".toList, "music.youtube.com".toList,
        "youtu.be".toList, "youtube-nocookie.com".toList]) :
    v ∈ variantStep all d := by
  refine mem_stages_of_mem.2.2.2 _ (mem_stages_of_mem.2.2.1 _ ?_)
  unfold youtubeStage
  rw [hy, if_pos rfl]
  exact mem_foldl_addU_self _ hv

/-- `variantStep` inserts the Twitter/X mobile variants. -/
theorem mem_variantStep_twitter {all : List Str} {d v : Str}
    (ht : d = "twitter.com".toList ∨ d = "x.com".toList)
    (hv : v ∈ ["mobile.twitter.com".toList, "mobile.x.com".toList]) :
    v ∈ variantStep all d := by
  refine mem_stages_of_mem.2.2.2 _ ?_
  unfold twitterStage
  have hc : (decide (d = "twitter.com".toList) ||
      decide (d = "x.com".toList)) = true := by
    rcases ht with rfl | rfl <;> simp
  rw [hc, if_pos rfl]
  exact mem_foldl_addU_self _ hv

/-- `variantStep` inserts the Reddit family variants. -/
theorem mem_variantStep_reddit {all : List Str} {d v : Str}
    (hr : containsSub "reddit.com".toList d = true)
    (hv : v ∈ ["old.reddit.com".toList, "new.reddit.com".toList,
        "i.reddit.com".toList]) :
    v ∈ variantStep all d := by
  unfold variantStep redditStage
  rw [hr, if_pos rfl]
  exact mem_foldl_addU_self _ hv

/-- Folding `variantStep` keeps existing members. -/
theorem mem_foldl_variantStep_of_mem {acc : List Str} {x : Str}
    (domains : List Str) (h : x ∈ acc) : x ∈ domains.foldl variantStep acc := by
  induction domains generalizing acc with
  | nil => exact h
  | cons d ds ih => exact ih (mem_variantStep_of_mem h)

/-- Anything `variantStep` inserts for a listed domain ends up in
`collectAllDomainsWithVariants`. -/
theorem mem_collect_of_step {domains : List Str} {x d : Str} (hd : d ∈ domains)
    (hstep : ∀ acc, x ∈ variantStep acc d) :
    x ∈ collectAllDomainsWithVariants domains := by
  have hgen : ∀ (ds : List Str), d ∈ ds → ∀ acc, x ∈ ds.foldl variantStep acc := by
    intro ds
    induction ds with
    | nil => intro hmem; cases hmem
    | cons w ws ih =>
        intro hmem acc
        rcases List.mem_cons.mp hmem with rfl | hmem2
        · exact mem_foldl_variantStep_of_mem ws (hstep acc)
        · exact ih hmem2 (variantStep acc w)
  exact hgen domains hd []

/-- The two-line host entry emitted for one name:
`0.0.0.0 <n>` then `:: <n>`. -/
def entryPair (n : Str) : Str :=
  "0.0.0.0 ".toList ++ n ++ ['\n'] ++ ":: ".toList ++ n ++ ['\n']

/-- Each listed name's entry pair occurs inside `entriesText`. -/
theorem entryPair_infix_entriesText {dl : List Str} {n : Str} (h : n ∈ dl) :
    entryPair n <:+: entriesText dl := by
  induction dl with
  | nil => cases h
  | cons w ws ih =>
      rcases List.mem_cons.mp h with rfl | hmem
      · exact ⟨[], entriesText ws, by simp [entryPair, entriesText, List.append_assoc]⟩
      · have hsub := ih hmem
        rcases hsub with ⟨u, v, huv⟩
        refine ⟨"0.0.0.0 ".toList ++ w ++ ['\n'] ++ ":: ".toList ++ w ++ ['\n'] ++ u,
          v, ?_⟩
        simp only [entriesText, huv, List.append_assoc]

/-- In the shield-on, non-empty case, `hostsUpdate` is the normalized base
followed by the freshly generated sentinel region. -/
theorem hostsUpdate_on_region (s : DaemonState) (now : ℚ) (ts content : Str)
    (hcond : (s.shieldActive &&
      !(collectAllDomainsWithVariants (getDomainsToBlock s now)).isEmpty) = true) :
    hostsUpdate s now ts content =
      (trimEnd (stripRegion content) ++ ['\n']) ++
        regionText ts (collectAllDomainsWithVariants (getDomainsToBlock s now)) := by
  simp [hostsUpdate, hcond]

/-- Under shield-on with a non-empty expanded set, each expanded name's
entry pair occurs in the written host-file content. -/
theorem entryPair_infix_hostsUpdate {s : DaemonState} {now : ℚ} {ts content v : Str}
    (hshield : s.shieldActive = true)
    (hv : v ∈ collectAllDomainsWithVariants (getDomainsToBlock s now)) :
    entryPair v <:+: hostsUpdate s now ts content := by
  have hne : collectAllDomainsWithVariants (getDomainsToBlock s now) ≠ [] :=
    List.ne_nil_of_mem hv
  have hcond : (s.shieldActive &&
      !(collectAllDomainsWithVariants (getDomainsToBlock s now)).isEmpty) = true := by
    rw [hshield]
    simp [hne]
  rw [hostsUpdate_on_region s now ts content hcond]
  refine (entryPair_infix_entriesText hv).trans ?_
  refine ⟨(trimEnd (stripRegion content) ++ ['\n']) ++
    (['\n'] ++ MARKER_START ++ ['\n'] ++ genLine ts ++
      countLine (collectAllDomainsWithVariants (getDomainsToBlock s now)).length),
    MARKER_END ++ ['\n'], ?_⟩
  simp [regionText, List.append_assoc]

/-- Claim C8 counterexample: a `facebook.com` blocklist entry produces only
the bare and `www.` names — no `m.facebook.com` (nor `mobile.`, `touch.`,
`web.`) appears anywhere in the written host-file content, refuting the
claimed facebook family variants. -/
theorem c8_facebook_variants_counterexample :
    (let s : DaemonState := ⟨["facebook.com".toList], [], true, 0⟩
     collectAllDomainsWithVariants (getDomainsToBlock s 0) =
       ["facebook.com".toList, "www.facebook.com".toList] ∧
     containsSub "m.facebook.com".toList (hostsUpdate s 0 "T".toList "h\n".toList)
       = false) := by
  constructor
  · decide
  · set_option maxRecDepth 10000 in decide

/-- Claim C8 (amended): whenever the shield is on and `d` is in the
effective set, the written host content contains the `0.0.0.0` / `::` entry
pair for `d`, for `www.<d>` unless `d` already starts with `www.`, and for
the fixed variant families the daemon actually implements — youtube
(substring test), twitter.com / x.com (exact), reddit.com (substring).
Facebook, Instagram and TikTok entries get only the bare and `www.` names. -/
theorem c8_region_contents_amended (s : DaemonState) (now : ℚ)
    (ts content d : Str)
    (hshield : s.shieldActive = true) (hd : d ∈ getDomainsToBlock s now) :
    entryPair d <:+: hostsUpdate s now ts content ∧
    (pfxB "www.".toList d = false →
      entryPair ("www.".toList ++ d) <:+: hostsUpdate s now ts content) ∧
    (containsSub "youtube.com".toList d = true →
      ∀ v ∈ ["m.youtube.com".toList, "music.youtube.com".toList,
          "youtu.be".toList, "youtube-nocookie.com".toList],
        entryPair v <:+: hostsUpdate s now ts content) ∧
    ((d = "twitter.com".toList ∨ d = "x.com".toList) →
      ∀ v ∈ ["mobile.twitter.com".toList, "mobile.x.com".toList],
        entryPair v <:+: hostsUpdate s now ts content) ∧
    (containsSub "reddit.com".toList d = true →
      ∀ v ∈ ["old.reddit.com".toList, "new.reddit.com".toList,
          "i.reddit.com".toList],
        entryPair v <:+: hostsUpdate s now ts content) := by
  refine ⟨?_, ?_, ?_, ?_, ?_⟩
  · exact entryPair_infix_hostsUpdate hshield
      (mem_collect_of_step hd (fun acc => mem_variantStep_self acc d))
  · intro hw
    exact entryPair_infix_hostsUpdate hshield
      (mem_collect_of_step hd (fun acc => mem_variantStep_www hw))
  · intro hy v hv
    exact entryPair_infix_hostsUpdate hshield
      (mem_collect_of_step hd (fun acc => mem_variantStep_youtube hy hv))
  · intro ht v hv
    exact entryPair_infix_hostsUpdate hshield
      (mem_collect_of_step hd (fun acc => mem_variantStep_twitter ht hv))
  · intro hr v hv
    exact entryPair_infix_hostsUpdate hshield
      (mem_collect_of_step hd (fun acc => mem_variantStep_reddit hr hv))

/-- Claim C8 witness: with `youtube.com` effectively blocked, the written
host file contains the entry pairs for `youtube.com`, `www.youtube.com`
and `m.youtube.com`. -/
theorem c8_region_contents_witness :
    entryPair "youtube.com".toList <:+:
      hostsUpdate ⟨["youtube.com".toList], [], true, 0⟩ 0 "T".toList "h\n".toList ∧
    entryPair "www.youtube.com".toList <:+:
      hostsUpdate ⟨["youtube.com".toList], [], true, 0⟩ 0 "T".toList "h\n".toList ∧
    entryPair "m.youtube.com".toList <:+:
      hostsUpdate ⟨["youtube.com".toList], [], true, 0⟩ 0 "T".toList "h\n".toList := by
  have h := c8_region_contents_amended ⟨["youtube.com".toList], [], true, 0⟩ 0
    "T".toList "h\n".toList "youtube.com".toList (by decide) (by decide)
  exact ⟨h.1, h.2.1 (by decide), h.2.2.1 (by decide) _ (by decide)⟩

/-! ### `indexOf` machinery for the sentinel-region proofs (claim C7) -/

/-- `pfxB` as an explicit decomposition. -/
theorem pfxB_iff {p s : Str} : pfxB p s = true ↔ ∃ t, s = p ++ t := by
  induction p generalizing s with
  | nil => simp [pfxB]
  | cons a p ih =>
      cases s with
      | nil => simp [pfxB]
      | cons b s =>
          simp only [pfxB, Bool.and_eq_true, decide_eq_true_eq, ih]
          constructor
          · rintro ⟨rfl, t, rfl⟩
            exact ⟨t, rfl⟩
          · rintro ⟨t, heq⟩
            rcases List.cons.injEq .. ▸ heq with ⟨rfl, rfl⟩
            exact ⟨rfl, t, rfl⟩

/-- A string starts with itself. -/
theorem pfxB_append (p r : Str) : pfxB p (p ++ r) = true :=
  pfxB_iff.mpr ⟨r, rfl⟩

/-- A prefix is no longer than the string. -/
theorem pfxB_length_le {p s : Str} (h : pfxB p s = true) : p.length ≤ s.length := by
  rcases pfxB_iff.mp h with ⟨t, rfl⟩
  simp

/-- A prefix is the corresponding `take`. -/
theorem pfxB_eq_take {p s : Str} (h : pfxB p s = true) : p = s.take p.length := by
  rcases pfxB_iff.mp h with ⟨t, rfl⟩
  simp

/-- A prefix of a `take` is a prefix of the whole string. -/
theorem pfxB_of_take {p s : Str} {j : ℕ} (h : pfxB p (s.take j) = true) :
    pfxB p s = true := by
  rcases pfxB_iff.mp h with ⟨t, ht⟩
  refine pfxB_iff.mpr ⟨t ++ s.drop j, ?_⟩
  conv_lhs => rw [← List.take_append_drop j s]
  rw [ht, List.append_assoc]

/-- No occurrence of `pat` anywhere in `s`. -/
def NoOcc (pat s : Str) : Prop := ∀ k, pfxB pat (s.drop k) = false

/-- `indexOf` misses exactly when there is no occurrence. -/
theorem noOcc_of_idxOf_none {pat s : Str} (h : idxOf pat s = none) : NoOcc pat s := by
  induction s with
  | nil =>
      intro k
      unfold idxOf at h
      rcases pat with _ | ⟨a, p⟩
      · simp at h
      · simp [pfxB]
  | cons c s ih =>
      intro k
      unfold idxOf at h
      by_cases hp : pfxB pat (c :: s) = true
      · rw [if_pos hp] at h
        cases h
      · rw [if_neg hp] at h
        have hnone : idxOf pat s = none := by
          rcases hidx : idxOf pat s with _ | m
          · rfl
          · rw [hidx] at h
            simp at h
        cases k with
        | zero => simpa using Bool.not_eq_true _ |>.mp hp
        | succ k => exact ih hnone k

/-- `indexOf` finds the first occurrence. -/
theorem idxOf_eq_some {pat s : Str} {m : ℕ}
    (hm : pfxB pat (s.drop m) = true)
    (hlt : ∀ k < m, pfxB pat (s.drop k) = false) :
    idxOf pat s = some m := by
  induction s generalizing m with
  | nil =>
      cases m with
      | zero =>
          unfold idxOf
          rcases pat with _ | ⟨a, p⟩
          · simp
          · simp [pfxB] at hm
      | succ m =>
          have h0 := hlt 0 (by omega)
          simp only [List.drop_nil] at h0 hm
          rw [hm] at h0
          cases h0
  | cons c s ih =>
      cases m with
      | zero =>
          unfold idxOf
          rw [if_pos (by simpa using hm)]
      | succ m =>
          have h0 : pfxB pat (c :: s) = false := by simpa using hlt 0 (by omega)
          unfold idxOf
          rw [if_neg (by simp [h0])]
          have : idxOf pat s = some m :=
            ih (by simpa using hm) (fun k hk => by simpa using hlt (k + 1) (by omega))
          rw [this]
          rfl

/-- `NoOcc` passes to initial segments. -/
theorem noOcc_take {pat s : Str} (h : NoOcc pat s) (m : ℕ) :
    NoOcc pat (s.take m) := by
  intro k
  rw [List.drop_take m k s]
  by_cases hp : pfxB pat ((s.drop k).take (m - k)) = true
  · have := pfxB_of_take hp
    rw [h k] at this
    cases this
  · exact Bool.not_eq_true _ |>.mp hp

/-- `trimEnd` is an initial segment. -/
theorem trimEnd_eq_take (s : Str) : ∃ m, trimEnd s = s.take m := by
  have hsfx : (s.reverse.dropWhile isWsChar) <:+ s.reverse := List.dropWhile_suffix _
  have hpre : (s.reverse.dropWhile isWsChar).reverse <+: s := by
    have := List.reverse_prefix.mpr hsfx
    simpa using this
  exact ⟨(s.reverse.dropWhile isWsChar).reverse.length, List.prefix_iff_eq_take.mp hpre⟩

/-- `NoOcc` passes to `trimEnd`. -/
theorem noOcc_trimEnd {pat s : Str} (h : NoOcc pat s) : NoOcc pat (trimEnd s) := by
  rcases trimEnd_eq_take s with ⟨m, hm⟩
  rw [hm]
  exact noOcc_take h m

/-- A newline can be appended to a clean string without creating an
occurrence of a newline-free pattern. -/
theorem noOcc_append_newline {pat s : Str} (h : NoOcc pat s)
    (hne : pat ≠ []) (hnl : '\n' ∉ pat) : NoOcc pat (s ++ ['\n']) := by
  intro k
  by_cases hp : pfxB pat ((s ++ ['\n']).drop k) = true
  · exfalso
    rw [List.drop_append_eq_append_drop] at hp
    rcases le_or_lt pat.length (s.drop k).length with hle | hgt
    · -- the occurrence fits inside `s`
      have htake := pfxB_eq_take hp
      rw [List.take_append_eq_append_take, Nat.sub_eq_zero_of_le hle,
        List.take_zero, List.append_nil] at htake
      have : pfxB pat (s.drop k) = true := by
        refine pfxB_iff.mpr ⟨(s.drop k).drop pat.length, ?_⟩
        conv_lhs => rw [← List.take_append_drop pat.length (s.drop k)]
        rw [← htake]
      rw [h k] at this
      cases this
    · -- the occurrence must cover the final newline, so '\n' ∈ pat
      have hlen := pfxB_length_le hp
      rcases pfxB_iff.mp hp with ⟨t, ht⟩
      have hlen2 : (s.drop k ++ ('\n'::[]).drop (k - s.length)).length =
          pat.length + t.length := by rw [ht]; simp
      rcases le_or_lt k s.length with hk | hk
      · have hdropnl : ('\n'::[]).drop (k - s.length) = ['\n'] := by
          rw [Nat.sub_eq_zero_of_le hk]
          rfl
        rw [hdropnl] at ht hlen2
        simp only [List.length_append, List.length_cons, List.length_nil] at hlen2
        have hteq : t = [] := by
          have : t.length = 0 := by omega
          exact List.length_eq_zero.mp this
        rw [hteq, List.append_nil] at ht
        apply hnl
        rw [← ht]
        exact List.mem_append_right _ (by simp)
      · have hsk : s.drop k = [] := List.drop_eq_nil_of_le (by omega)
        rw [hsk, List.nil_append] at hp
        rcases hd : ('\n'::[]).drop (k - s.length) with _ | ⟨c, rest⟩
        · rw [hd] at hp
          rcases pat with _ | p
          · exact hne rfl
          · simp [pfxB] at hp
        · have hsub : ('\n'::[]).drop (k - s.length) ⊆ ['\n'] := List.drop_subset _ _
          rw [hd] at hp hsub
          rcases pat with _ | ⟨a, p⟩
          · exact hne rfl
          · have : a = c := by
              simp only [pfxB, Bool.and_eq_true, decide_eq_true_eq] at hp
              exact hp.1
            apply hnl
            have hc : c ∈ ['\n'] := hsub (by simp)
            simp only [List.mem_singleton] at hc
            rw [this, hc]
            simp
  · exact Bool.not_eq_true _ |>.mp hp

/-- No newline-free pattern occurrence can start strictly inside a clean
block that ends with a newline, even when more text follows. -/
theorem no_cross {pat X : Str} (hne : pat ≠ []) (hnl : '\n' ∉ pat)
    (hX : NoOcc pat X) (hXend : ∃ X', X = X' ++ ['\n']) :
    ∀ k < X.length, ∀ Y, pfxB pat ((X ++ Y).drop k) = false := by
  intro k hk Y
  by_cases hp : pfxB pat ((X ++ Y).drop k) = true
  · exfalso
    rw [List.drop_append_eq_append_drop, Nat.sub_eq_zero_of_le (by omega),
      List.drop_zero] at hp
    rcases le_or_lt pat.length (X.drop k).length with hle | hgt
    · have htake := pfxB_eq_take hp
      rw [List.take_append_eq_append_take, Nat.sub_eq_zero_of_le hle,
        List.take_zero, List.append_nil] at htake
      have : pfxB pat (X.drop k) = true := by
        refine pfxB_iff.mpr ⟨(X.drop k).drop pat.length, ?_⟩
        conv_lhs => rw [← List.take_append_drop pat.length (X.drop k)]
        rw [← htake]
      rw [hX k] at this
      cases this
    · rcases pfxB_iff.mp hp with ⟨t, ht⟩
      have hXk : X.drop k = pat.take (X.drop k).length := by
        have := congrArg (List.take (X.drop k).length) ht
        rw [List.take_append_eq_append_take, Nat.sub_eq_zero_of_le (by simp),
          List.take_zero, List.append_nil, List.take_length,
          List.take_append_eq_append_take,
          Nat.sub_eq_zero_of_le (by omega), List.take_zero, List.append_nil] at this
        exact this
      apply hnl
      have hmem : '\n' ∈ X.drop k := by
        rcases hXend with ⟨X', rfl⟩
        rw [List.drop_append_eq_append_drop]
        rcases le_or_lt (k - X'.length) 0 with h0 | h0
        · exact List.mem_append_right _ (by
            rw [Nat.le_zero.mp h0]
            simp)
        · exfalso
          simp only [List.length_append, List.length_cons, List.length_nil] at hk
          omega
      rw [hXk] at hmem
      exact List.take_subset _ _ hmem
  · exact Bool.not_eq_true _ |>.mp hp

/-- The first occurrence of a clean pattern placed after a clean
newline-terminated block is exactly at the block's length. -/
theorem idxOf_padded {pat X : Str} (hne : pat ≠ []) (hnl : '\n' ∉ pat)
    (hX : NoOcc pat X) (hXend : ∃ X', X = X' ++ ['\n']) (R : Str) :
    idxOf pat (X ++ (pat ++ R)) = some X.length := by
  refine idxOf_eq_some ?_ ?_
  · rw [List.drop_append_eq_append_drop, Nat.sub_self, List.drop_zero,
      List.drop_eq_nil_of_le (le_refl _), List.nil_append]
    exact pfxB_append pat R
  · intro k hk
    exact no_cross hne hnl hX hXend k hk _

/-- `NoOcc` is preserved by appending, provided the left block is clean,
newline-terminated, and the right part is clean. -/
theorem noOcc_split {pat X Y : Str} (hne : pat ≠ []) (hnl : '\n' ∉ pat)
    (hX : NoOcc pat X) (hXend : ∃ X', X = X' ++ ['\n']) (hY : NoOcc pat Y) :
    NoOcc pat (X ++ Y) := by
  intro k
  rcases lt_or_le k X.length with hk | hk
  · exact no_cross hne hnl hX hXend k hk Y
  · rw [List.drop_append_eq_append_drop, List.drop_eq_nil_of_le hk,
      List.nil_append]
    exact hY _

/-- A pattern with head `c` cannot occur in a string not containing `c`. -/
theorem noOcc_of_head_notMem {c : Char} {p' s : Str} (hc : c ∉ s) :
    NoOcc (c :: p') s := by
  intro k
  by_cases hp : pfxB (c :: p') (s.drop k) = true
  · exfalso
    rcases pfxB_iff.mp hp with ⟨t, ht⟩
    apply hc
    apply List.drop_subset k s
    rw [ht]
    simp
  · exact Bool.not_eq_true _ |>.mp hp

/-- A `#`-headed pattern that fails at position 0 of a `#`-headed line
with no further `#` does not occur in it at all. -/
theorem noOcc_hash_chunk {p' rest : Str}
    (h0 : pfxB ('#' :: p') ('#' :: rest) = false) (hrest : '#' ∉ rest) :
    NoOcc ('#' :: p') ('#' :: rest) := by
  intro k
  cases k with
  | zero => exact h0
  | succ k => exact noOcc_of_head_notMem hrest k

/-- What `addU` can contain. -/
theorem mem_addU_cases {l : List Str} {x y : Str} (h : x ∈ addU l y) :
    x ∈ l ∨ x = y := by
  unfold addU at h
  split at h
  · exact Or.inl h
  · rcases List.mem_append.mp h with h1 | h1
    · exact Or.inl h1
    · exact Or.inr (List.mem_singleton.mp h1)

/-- What a fold of `addU` can contain. -/
theorem mem_foldl_addU_cases {acc : List Str} {x : Str} (vs : List Str)
    (h : x ∈ vs.foldl addU acc) : x ∈ acc ∨ x ∈ vs := by
  induction vs generalizing acc with
  | nil => exact Or.inl h
  | cons v ws ih =>
      rcases @ih (addU acc v) h with h1 | h1
      · rcases mem_addU_cases h1 with h2 | h2
        · exact Or.inl h2
        · exact Or.inr (h2 ▸ List.mem_cons_self v ws)
      · exact Or.inr (List.mem_cons_of_mem _ h1)

/-- The fixed variant names of all three implemented families. -/
def fixedVariants : List Str :=
  ["m.youtube.com".toList, "music.youtube.com".toList, "youtu.be".toList,
   "youtube-nocookie.com".toList, "mobile.twitter.com".toList,
   "mobile.x.com".toList, "old.reddit.com".toList, "new.reddit.com".toList,
   "i.reddit.com".toList]

/-- What `wwwStage` can contain. -/
theorem mem_wwwStage_cases {l : List Str} {x d : Str} (h : x ∈ wwwStage d l) :
    x ∈ l ∨ x = "www.".toList ++ d := by
  unfold wwwStage at h
  split at h
  · exact mem_addU_cases h
  · exact Or.inl h

/-- What `youtubeStage` can contain. -/
theorem mem_youtubeStage_cases {l : List Str} {x d : Str}
    (h : x ∈ youtubeStage d l) : x ∈ l ∨ x ∈ fixedVariants := by
  unfold youtubeStage at h
  split at h
  · rcases mem_foldl_addU_cases _ h with h1 | h1
    · exact Or.inl h1
    · right
      simp only [fixedVariants, List.mem_cons, List.mem_singleton] at h1 ⊢
      tauto
  · exact Or.inl h

/-- What `twitterStage` can contain. -/
theorem mem_twitterStage_cases {l : List Str} {x d : Str}
    (h : x ∈ twitterStage d l) : x ∈ l ∨ x ∈ fixedVariants := by
  unfold twitterStage at h
  split at h
  · rcases mem_foldl_addU_cases _ h with h1 | h1
    · exact Or.inl h1
    · right
      simp only [fixedVariants, List.mem_cons, List.mem_singleton] at h1 ⊢
      tauto
  · exact Or.inl h

/-- What `redditStage` can contain. -/
theorem mem_redditStage_cases {l : List Str} {x d : Str}
    (h : x ∈ redditStage d l) : x ∈ l ∨ x ∈ fixedVariants := by
  unfold redditStage at h
  split at h
  · rcases mem_foldl_addU_cases _ h with h1 | h1
    · exact Or.inl h1
    · right
      simp only [fixedVariants, List.mem_cons, List.mem_singleton] at h1 ⊢
      tauto
  · exact Or.inl h

/-- What one `variantStep` can contain. -/
theorem mem_variantStep_cases {all : List Str} {x d : Str}
    (h : x ∈ variantStep all d) :
    x ∈ all ∨ x = d ∨ x = "www.".toList ++ d ∨ x ∈ fixedVariants := by
  unfold variantStep at h
  rcases mem_redditStage_cases h with h | h
  · rcases mem_twitterStage_cases h with h | h
    · rcases mem_youtubeStage_cases h with h | h
      · rcases mem_wwwStage_cases h with h | h
        · rcases mem_addU_cases h with h | h
          · exact Or.inl h
          · exact Or.inr (Or.inl h)
        · exact Or.inr (Or.inr (Or.inl h))
      · exact Or.inr (Or.inr (Or.inr h))
    · exact Or.inr (Or.inr (Or.inr h))
  · exact Or.inr (Or.inr (Or.inr h))

/-- What `collectAllDomainsWithVariants` can contain. -/
theorem mem_collect_cases {domains : List Str} {x : Str}
    (h : x ∈ collectAllDomainsWithVariants domains) :
    (∃ d ∈ domains, x = d ∨ x = "www.".toList ++ d) ∨ x ∈ fixedVariants := by
  have hgen : ∀ (ds : List Str) (acc : List Str), x ∈ ds.foldl variantStep acc →
      x ∈ acc ∨ (∃ d ∈ ds, x = d ∨ x = "www.".toList ++ d) ∨ x ∈ fixedVariants := by
    intro ds
    induction ds with
    | nil => exact fun acc h => Or.inl h
    | cons w ws ih =>
        intro acc hmem
        rcases ih (variantStep acc w) hmem with h1 | h1 | h1
        · rcases mem_variantStep_cases h1 with h2 | h2 | h2 | h2
          · exact Or.inl h2
          · exact Or.inr (Or.inl ⟨w, List.mem_cons_self w ws, Or.inl h2⟩)
          · exact Or.inr (Or.inl ⟨w, List.mem_cons_self w ws, Or.inr h2⟩)
          · exact Or.inr (Or.inr h2)
        · rcases h1 with ⟨d, hd, hx⟩
          exact Or.inr (Or.inl ⟨d, List.mem_cons_of_mem _ hd, hx⟩)
        · exact Or.inr (Or.inr h1)
  rcases hgen domains [] h with h1 | h1
  · cases h1
  · exact h1

/-- Domains that contain neither `#` nor a newline expand to names that
contain neither `#` nor a newline. -/
theorem collect_clean {domains : List Str}
    (hdom : ∀ d ∈ domains, '#' ∉ d ∧ '\n' ∉ d) :
    ∀ x ∈ collectAllDomainsWithVariants domains, '#' ∉ x ∧ '\n' ∉ x := by
  intro x hx
  rcases mem_collect_cases hx with ⟨d, hd, heq | heq⟩ | h1
  · rw [heq]
    exact hdom d hd
  · rcases hdom d hd with ⟨h1, h2⟩
    rw [heq]
    constructor
    · intro hc
      rcases List.mem_append.mp hc with hc | hc
      · simp at hc
      · exact h1 hc
    · intro hc
      rcases List.mem_append.mp hc with hc | hc
      · simp at hc
      · exact h2 hc
  · have hfix : ∀ y ∈ fixedVariants, '#' ∉ y ∧ '\n' ∉ y := by decide
    exact hfix x h1

/-- `dropWhile` is idempotent. -/
theorem dropWhile_idem (p : Char → Bool) (l : Str) :
    (l.dropWhile p).dropWhile p = l.dropWhile p := by
  induction l with
  | nil => rfl
  | cons c l ih =>
      by_cases hc : p c = true
      · rw [List.dropWhile_cons_of_pos hc]
        exact ih
      · rw [List.dropWhile_cons_of_neg hc, List.dropWhile_cons_of_neg hc]

/-- Appending trailing whitespace does not change `trimEnd`. -/
theorem trimEnd_append_ws {w : Str} (s : Str) (hw : ∀ c ∈ w, isWsChar c = true) :
    trimEnd (s ++ w) = trimEnd s := by
  unfold trimEnd
  rw [List.reverse_append, List.dropWhile_append_of_pos
    (fun c hc => hw c (List.mem_reverse.mp hc))]

/-- `trimEnd` is idempotent. -/
theorem trimEnd_idem (s : Str) : trimEnd (trimEnd s) = trimEnd s := by
  unfold trimEnd
  rw [List.reverse_reverse, dropWhile_idem]

/-- `entriesText` of a cons, re-associated into two newline-terminated
chunks followed by the rest. -/
theorem entriesText_cons (d : Str) (rest : List Str) :
    entriesText (d :: rest) =
      ("0.0.0.0 ".toList ++ d ++ ['\n']) ++
        ((":: ".toList ++ d ++ ['\n']) ++ entriesText rest) := by
  simp [entriesText, List.append_assoc]

/-- A non-empty entry list renders to text ending in a newline. -/
theorem entriesText_ends {dl : List Str} (h : dl ≠ []) :
    ∃ E, entriesText dl = E ++ ['\n'] := by
  induction dl with
  | nil => exact absurd rfl h
  | cons d rest ih =>
      rcases hrest : rest with _ | ⟨e, es⟩
      · refine ⟨"0.0.0.0 ".toList ++ d ++ ['\n'] ++ ":: ".toList ++ d, ?_⟩
        simp [entriesText, List.append_assoc]
      · rcases ih (by simp [hrest]) with ⟨E, hE⟩
        rw [← hrest]
        refine ⟨"0.0.0.0 ".toList ++ d ++ ['\n'] ++ ":: ".toList ++ d ++ ['\n'] ++ E, ?_⟩
        rw [entriesText_cons, hrest] at *
        rw [hE]
        simp [List.append_assoc]

/-- A `#`-headed, newline-free pattern does not occur in the rendered
entries of `#`-free domains. -/
theorem noOcc_entriesText {p' : Str} {dl : List Str} (hnl : '\n' ∉ ('#' :: p'))
    (hclean : ∀ d ∈ dl, '#' ∉ d) : NoOcc ('#' :: p') (entriesText dl) := by
  induction dl with
  | nil =>
      intro k
      show pfxB ('#' :: p') ((entriesText []).drop k) = false
      have : entriesText [] = [] := rfl
      rw [this, List.drop_nil]
      rfl
  | cons d rest ih =>
      rw [entriesText_cons]
      have hd : '#' ∉ d := (hclean d (List.mem_cons_self d rest))
      have hch1 : ('#' : Char) ∉ "0.0.0.0 ".toList ++ d ++ ['\n'] := by
        intro hc
        simp only [List.mem_append] at hc
        rcases hc with (hc | hc) | hc
        · revert hc; decide
        · exact hd hc
        · revert hc; decide
      have hch2 : ('#' : Char) ∉ ":: ".toList ++ d ++ ['\n'] := by
        intro hc
        simp only [List.mem_append] at hc
        rcases hc with (hc | hc) | hc
        · revert hc; decide
        · exact hd hc
        · revert hc; decide
      refine noOcc_split (by simp) hnl (noOcc_of_head_notMem hch1)
        ⟨"0.0.0.0 ".toList ++ d, by simp [List.append_assoc]⟩ ?_
      refine noOcc_split (by simp) hnl (noOcc_of_head_notMem hch2)
        ⟨":: ".toList ++ d, by simp [List.append_assoc]⟩ ?_
      exact ih (fun e he => hclean e (List.mem_cons_of_mem _ he))

/-- `digitChar10` always yields a decimal digit. -/
theorem digitChar10_mem (k : ℕ) :
    digitChar10 k ∈ ['0', '1', '2', '3', '4', '5', '6', '7', '8', '9'] := by
  unfold digitChar10
  rcases hget : (['0', '1', '2', '3', '4', '5', '6', '7', '8', '9'] : List Char)[k]? with
    _ | ⟨e⟩
  · simp [List.getD, hget]
  · have hmem := List.getElem?_mem hget
    simpa [List.getD, hget] using hmem

/-- Every character `natToCharsAux` emits is a decimal digit. -/
theorem natToCharsAux_digits (fuel n : ℕ) :
    ∀ c ∈ natToCharsAux fuel n,
      c ∈ ['0', '1', '2', '3', '4', '5', '6', '7', '8', '9'] := by
  induction fuel generalizing n with
  | zero => intro c hc; cases hc
  | succ fuel ih =>
      intro c hc
      unfold natToCharsAux at hc
      split at hc
      · rcases List.mem_singleton.mp hc with rfl
        exact digitChar10_mem n
      · rcases List.mem_append.mp hc with hc | hc
        · exact ih _ c hc
        · rcases List.mem_singleton.mp hc with rfl
          exact digitChar10_mem (n % 10)

/-- `natToChars` contains neither `#` nor a newline. -/
theorem natToChars_clean (n : ℕ) : ('#' : Char) ∉ natToChars n ∧ ('\n' : Char) ∉ natToChars n := by
  constructor <;>
    (intro hc
     have := natToCharsAux_digits (n + 1) n _ hc
     revert this
     decide)

/-- `genLine` as an explicit `#`-headed line. -/
theorem genLine_cons (ts : Str) :
    genLine ts = '#' :: (" Generated: ".toList ++ (ts ++ ['\n'])) := rfl

/-- `countLine` as an explicit `#`-headed line. -/
theorem countLine_cons (n : ℕ) :
    countLine n =
      '#' :: (" Blocking ".toList ++ (natToChars n ++ (" domains".toList ++ ['\n']))) := by
  unfold countLine
  simp [List.append_assoc]

/-- `MARKER_END` as an explicit `#`-headed pattern. -/
theorem marker_end_cons : MARKER_END = '#' :: " END FOCUS SHIELD BLOCK".toList := rfl

/-- `MARKER_START` as an explicit `#`-headed pattern. -/
theorem marker_start_cons :
    MARKER_START = '#' :: " BEGIN FOCUS SHIELD BLOCK".toList := rfl

/-- Neither marker occurs in the generation-stamp line of a `#`-free
timestamp. -/
theorem noOcc_marker_genLine {ts : Str} (hts : '#' ∉ ts) :
    NoOcc MARKER_START (genLine ts) ∧ NoOcc MARKER_END (genLine ts) := by
  have hrest : ('#' : Char) ∉ " Generated: ".toList ++ (ts ++ ['\n']) := by
    intro hc
    rcases List.mem_append.mp hc with hc | hc
    · revert hc; decide
    · rcases List.mem_append.mp hc with hc | hc
      · exact hts hc
      · revert hc; decide
  constructor
  · rw [genLine_cons, marker_start_cons]
    exact noOcc_hash_chunk (by rw [← marker_start_cons, ← genLine_cons]; rfl) hrest
  · rw [genLine_cons, marker_end_cons]
    exact noOcc_hash_chunk (by rw [← marker_end_cons, ← genLine_cons]; rfl) hrest

/-- Neither marker occurs in the domain-count line. -/
theorem noOcc_marker_countLine (n : ℕ) :
    NoOcc MARKER_START (countLine n) ∧ NoOcc MARKER_END (countLine n) := by
  have hrest : ('#' : Char) ∉
      " Blocking ".toList ++ (natToChars n ++ (" domains".toList ++ ['\n'])) := by
    intro hc
    rcases List.mem_append.mp hc with hc | hc
    · revert hc; decide
    · rcases List.mem_append.mp hc with hc | hc
      · exact (natToChars_clean n).1 hc
      · revert hc; decide
  constructor
  · rw [countLine_cons, marker_start_cons]
    refine noOcc_hash_chunk ?_ hrest
    rw [← marker_start_cons, ← countLine_cons]
    unfold countLine
    rfl
  · rw [countLine_cons, marker_end_cons]
    refine noOcc_hash_chunk ?_ hrest
    rw [← marker_end_cons, ← countLine_cons]
    unfold countLine
    rfl

/-- If the start marker is absent, `stripRegion` is the identity. -/
theorem strip_of_none {c : Str} (hS : idxOf MARKER_START c = none) :
    stripRegion c = c := by
  cases hE : idxOf MARKER_END c <;> simp [stripRegion, hS, hE]

/-- When the shield condition is false, `updateHostsFile` just strips the
region and normalizes the tail to a single newline. -/
theorem hostsUpdate_off (s : DaemonState) (now : ℚ) (ts content : Str)
    (hcond : (s.shieldActive &&
      !(collectAllDomainsWithVariants (getDomainsToBlock s now)).isEmpty) = false) :
    hostsUpdate s now ts content = trimEnd (stripRegion content) ++ ['\n'] := by
  simp [hostsUpdate, hcond]

/-- Every applied domain comes from the daemon's blocklist. -/
theorem getDomainsToBlock_subset (s : DaemonState) (now : ℚ) :
    ∀ d ∈ getDomainsToBlock s now, d ∈ s.blockedDomains := by
  intro d hd
  simp only [getDomainsToBlock] at hd
  exact List.mem_of_mem_filter hd

/-- `stripRegion` at known marker positions. -/
theorem stripRegion_of_idx {c : Str} {i j : ℕ} (hS : idxOf MARKER_START c = some i)
    (hE : idxOf MARKER_END c = some j) :
    stripRegion c = c.take i ++ c.drop (j + MARKER_END.length) := by
  unfold stripRegion
  rw [hS, hE]

/-- Master region computation: on marker-free content with `#`- and
newline-clean domains and timestamp, stripping the region written by an
active `updateHostsFile` leaves exactly the trimmed original plus the three
padding newlines `base`/`region` introduce around the sentinels. -/
theorem stripRegion_hostsUpdate (s : DaemonState) (now : ℚ) (ts c : Str)
    (hS : idxOf MARKER_START c = none) (hE : idxOf MARKER_END c = none)
    (hdom : ∀ d ∈ s.blockedDomains, '#' ∉ d ∧ '\n' ∉ d)
    (hts : '#' ∉ ts)
    (hcond : (s.shieldActive &&
      !(collectAllDomainsWithVariants (getDomainsToBlock s now)).isEmpty) = true) :
    stripRegion (hostsUpdate s now ts c) = trimEnd c ++ ['\n', '\n', '\n'] := by
  have hclean : ∀ x ∈ collectAllDomainsWithVariants (getDomainsToBlock s now),
      '#' ∉ x ∧ '\n' ∉ x :=
    collect_clean (fun d hd => hdom d (getDomainsToBlock_subset s now d hd))
  have hAne : collectAllDomainsWithVariants (getDomainsToBlock s now) ≠ [] := by
    intro h
    rw [h] at hcond
    simp at hcond
  have hup := hostsUpdate_on_region s now ts c hcond
  rw [strip_of_none hS] at hup
  have hshape1 : hostsUpdate s now ts c =
      ((trimEnd c ++ ['\n']) ++ ['\n']) ++ (MARKER_START ++ (['\n'] ++ (genLine ts ++
        (countLine (collectAllDomainsWithVariants (getDomainsToBlock s now)).length ++
          (entriesText (collectAllDomainsWithVariants (getDomainsToBlock s now)) ++
            (MARKER_END ++ ['\n'])))))) := by
    rw [hup]
    simp [regionText, List.append_assoc]
  have hNoS_X1 : NoOcc MARKER_START ((trimEnd c ++ ['\n']) ++ ['\n']) :=
    noOcc_append_newline
      (noOcc_append_newline (noOcc_trimEnd (noOcc_of_idxOf_none hS)) (by decide) (by decide))
      (by decide) (by decide)
  have hidxS : idxOf MARKER_START (hostsUpdate s now ts c) =
      some ((trimEnd c ++ ['\n']) ++ ['\n']).length := by
    rw [hshape1]
    exact idxOf_padded (by decide) (by decide) hNoS_X1 ⟨trimEnd c ++ ['\n'], rfl⟩ _
  have hNoE_X1 : NoOcc MARKER_END ((trimEnd c ++ ['\n']) ++ ['\n']) :=
    noOcc_append_newline
      (noOcc_append_newline (noOcc_trimEnd (noOcc_of_idxOf_none hE)) (by decide) (by decide))
      (by decide) (by decide)
  have hNoE_MS : NoOcc MARKER_END (MARKER_START ++ ['\n']) :=
    noOcc_append_newline (noOcc_of_idxOf_none (by decide)) (by decide) (by decide)
  have hNoE_entries : NoOcc MARKER_END
      (entriesText (collectAllDomainsWithVariants (getDomainsToBlock s now))) := by
    rw [marker_end_cons]
    exact noOcc_entriesText (by decide) (fun d hd => (hclean d hd).1)
  have hshape2 : hostsUpdate s now ts c =
      (((trimEnd c ++ ['\n']) ++ ['\n']) ++ ((MARKER_START ++ ['\n']) ++ (genLine ts ++
        (countLine (collectAllDomainsWithVariants (getDomainsToBlock s now)).length ++
          entriesText (collectAllDomainsWithVariants (getDomainsToBlock s now)))))) ++
        (MARKER_END ++ ['\n']) := by
    rw [hup]
    simp [regionText, List.append_assoc]
  have hNoE_X2 : NoOcc MARKER_END
      (((trimEnd c ++ ['\n']) ++ ['\n']) ++ ((MARKER_START ++ ['\n']) ++ (genLine ts ++
        (countLine (collectAllDomainsWithVariants (getDomainsToBlock s now)).length ++
          entriesText (collectAllDomainsWithVariants (getDomainsToBlock s now)))))) := by
    refine noOcc_split (by decide) (by decide) hNoE_X1 ⟨trimEnd c ++ ['\n'], rfl⟩ ?_
    refine noOcc_split (by decide) (by decide) hNoE_MS ⟨MARKER_START, rfl⟩ ?_
    refine noOcc_split (by decide) (by decide) (noOcc_marker_genLine hts).2
      ⟨"# Generated: ".toList ++ ts, rfl⟩ ?_
    refine noOcc_split (by decide) (by decide)
      (noOcc_marker_countLine
        (collectAllDomainsWithVariants (getDomainsToBlock s now)).length).2
      ⟨"# Blocking ".toList ++
        natToChars (collectAllDomainsWithVariants (getDomainsToBlock s now)).length ++
        " domains".toList, rfl⟩ hNoE_entries
  rcases entriesText_ends hAne with ⟨E, hEnd⟩
  have hX2end : ∃ X2p,
      (((trimEnd c ++ ['\n']) ++ ['\n']) ++ ((MARKER_START ++ ['\n']) ++ (genLine ts ++
        (countLine (collectAllDomainsWithVariants (getDomainsToBlock s now)).length ++
          entriesText (collectAllDomainsWithVariants (getDomainsToBlock s now)))))) =
        X2p ++ ['\n'] := by
    refine ⟨((trimEnd c ++ ['\n']) ++ ['\n']) ++ ((MARKER_START ++ ['\n']) ++ (genLine ts ++
      (countLine (collectAllDomainsWithVariants (getDomainsToBlock s now)).length ++ E))), ?_⟩
    rw [hEnd]
    simp [List.append_assoc]
  have hidxE : idxOf MARKER_END (hostsUpdate s now ts c) =
      some (((trimEnd c ++ ['\n']) ++ ['\n']) ++ ((MARKER_START ++ ['\n']) ++ (genLine ts ++
        (countLine (collectAllDomainsWithVariants (getDomainsToBlock s now)).length ++
          entriesText (collectAllDomainsWithVariants (getDomainsToBlock s now)))))).length := by
    rw [hshape2]
    exact idxOf_padded (by decide) (by decide) hNoE_X2 hX2end _
  have htake : (hostsUpdate s now ts c).take ((trimEnd c ++ ['\n']) ++ ['\n']).length =
      (trimEnd c ++ ['\n']) ++ ['\n'] := by
    rw [hshape1]
    exact List.take_left' rfl
  have hdrop : (hostsUpdate s now ts c).drop
      ((((trimEnd c ++ ['\n']) ++ ['\n']) ++ ((MARKER_START ++ ['\n']) ++ (genLine ts ++
        (countLine (collectAllDomainsWithVariants (getDomainsToBlock s now)).length ++
          entriesText (collectAllDomainsWithVariants (getDomainsToBlock s now)))))).length +
        MARKER_END.length) = ['\n'] := by
    have hshape2' : hostsUpdate s now ts c =
        ((((trimEnd c ++ ['\n']) ++ ['\n']) ++ ((MARKER_START ++ ['\n']) ++ (genLine ts ++
          (countLine (collectAllDomainsWithVariants (getDomainsToBlock s now)).length ++
            entriesText (collectAllDomainsWithVariants (getDomainsToBlock s now)))))) ++
          MARKER_END) ++ ['\n'] := by
      rw [hshape2]
      simp [List.append_assoc]
    rw [hshape2']
    exact List.drop_left' (List.length_append _ _)
  rw [stripRegion_of_idx hidxS hidxE, htake, hdrop]
  simp

set_option maxRecDepth 100000 in
/-- C7 (counterexample): apply-then-clear is NOT byte-identical outside the
sentinels. On initial hosts content `x` (blocklist `a.com`, shield on, then
the cleared state), the result is `x` plus a trailing newline, not `x`:
`updateHostsFile` normalizes the original tail with `trimEnd()` and appends
`'\n'`, so the pre-apply bytes are only restored when the file already ended
in exactly one newline. -/
theorem c7_trailing_newline_counterexample :
    hostsUpdate ⟨["a.com".toList], [], false, 0⟩ 0 "T".toList
        (hostsUpdate ⟨["a.com".toList], [], true, 0⟩ 0 "T".toList "x".toList) =
      ['x', '\n'] ∧
    hostsUpdate ⟨["a.com".toList], [], false, 0⟩ 0 "T".toList
        (hostsUpdate ⟨["a.com".toList], [], true, 0⟩ 0 "T".toList "x".toList) ≠
      "x".toList := by
  decide

/-- C7 (amended): for marker-free initial content, with `#`/newline-clean
blocklist domains and timestamp, apply-then-clear restores the original
content up to tail-whitespace normalization (`trimEnd` plus one newline) —
byte-identical exactly when the file already ended that way — and re-running
the update on the same state, timestamp and content is idempotent. -/
theorem c7_sentinel_restore_amended (s s₂ : DaemonState) (now now₂ : ℚ) (ts ts₂ c : Str)
    (hS : idxOf MARKER_START c = none) (hE : idxOf MARKER_END c = none)
    (hdom : ∀ d ∈ s.blockedDomains, '#' ∉ d ∧ '\n' ∉ d)
    (hts : '#' ∉ ts)
    (happly : (s.shieldActive &&
      !(collectAllDomainsWithVariants (getDomainsToBlock s now)).isEmpty) = true)
    (hclear : (s₂.shieldActive &&
      !(collectAllDomainsWithVariants (getDomainsToBlock s₂ now₂)).isEmpty) = false) :
    hostsUpdate s₂ now₂ ts₂ (hostsUpdate s now ts c) = trimEnd c ++ ['\n'] ∧
    hostsUpdate s now ts (hostsUpdate s now ts c) = hostsUpdate s now ts c := by
  have hstrip := stripRegion_hostsUpdate s now ts c hS hE hdom hts happly
  have hcollapse : trimEnd (trimEnd c ++ ['\n', '\n', '\n']) = trimEnd c := by
    rw [@trimEnd_append_ws ['\n', '\n', '\n'] (trimEnd c) (by decide), trimEnd_idem]
  constructor
  · rw [hostsUpdate_off s₂ now₂ ts₂ _ hclear, hstrip, hcollapse]
  · rw [hostsUpdate_on_region s now ts (hostsUpdate s now ts c) happly, hstrip, hcollapse,
      hostsUpdate_on_region s now ts c happly, strip_of_none hS]

set_option maxRecDepth 100000 in
/-- C7 witness: the amended restore/idempotence theorem instantiated at
blocklist `a.com`, timestamps `T`/`U` and initial content `x`. -/
theorem c7_sentinel_restore_witness :
    hostsUpdate ⟨["a.com".toList], [], false, 0⟩ 0 "U".toList
        (hostsUpdate ⟨["a.com".toList], [], true, 0⟩ 0 "T".toList "x".toList) =
      trimEnd "x".toList ++ ['\n'] ∧
    hostsUpdate ⟨["a.com".toList], [], true, 0⟩ 0 "T".toList
        (hostsUpdate ⟨["a.com".toList], [], true, 0⟩ 0 "T".toList "x".toList) =
      hostsUpdate ⟨["a.com".toList], [], true, 0⟩ 0 "T".toList "x".toList :=
  c7_sentinel_restore_amended ⟨["a.com".toList], [], true, 0⟩
    ⟨["a.com".toList], [], false, 0⟩ 0 0 "T".toList "U".toList "x".toList
    (by decide) (by decide) (by decide) (by decide) (by decide) (by decide)
